import Mathlib

/-!
Verification of the snapshot subsystem of `raftstore` (snap.rs and
snap/io.rs): a shallow embedding of the registry, quota eviction, on-disk
validation, receiver-side streaming/save, chunked SST building, replay
loops and snapshot-name parsing, together with proofs of the specified
properties.

Machine integers of the source (`u64`, `usize`) are modelled as `Nat`;
the source only adds sizes of real files and never relies on wrap-around,
and explicit `2 ^ 64` bounds are kept where `u64` parsing can overflow.
-/

namespace SnapModel

/-- The four in-flight roles a snapshot may be registered under
(`SnapEntry` in snap.rs). -/
inductive SnapEntry where
  | generating
  | sending
  | receiving
  | applying
deriving DecidableEq, Repr

/-- Identifier of one snapshot generation of one region (`SnapKey`). -/
structure SnapKey where
  regionId : Nat
  term : Nat
  idx : Nat
deriving DecidableEq, Repr

/-- `TabletSnapKey`: like `SnapKey` but carrying the target replica id. -/
structure TabletSnapKey where
  regionId : Nat
  toPeer : Nat
  term : Nat
  idx : Nat
deriving DecidableEq, Repr

/-!
## Registry (`SnapManagerCore.registry`)

The registry `HashMap<SnapKey, Vec<SnapEntry>>` is modelled as an
association list without duplicate keys; hash-map iteration order is
irrelevant to every registry operation in the source.
-/

abbrev Registry := List (SnapKey × List SnapEntry)

def lookupReg : Registry → SnapKey → Option (List SnapEntry)
  | [], _ => none
  | (k, l) :: r, key => if k = key then some l else lookupReg r key

def setReg : Registry → SnapKey → List SnapEntry → Registry
  | [], _, _ => []
  | (k, l) :: r, key, v =>
      if k = key then (k, v) :: r else (k, l) :: setReg r key v

def eraseReg : Registry → SnapKey → Registry
  | [], _ => []
  | (k, l) :: r, key => if k = key then r else (k, l) :: eraseReg r key

/-- `SnapManager::register`: a duplicate (key, entry) pair is a warning and
a no-op, a new entry for a present key is pushed at the end of the role
list, and an absent key is inserted with a singleton role list. -/
def register (reg : Registry) (key : SnapKey) (entry : SnapEntry) : Registry :=
  match lookupReg reg key with
  | some l => if entry ∈ l then reg else setReg reg key (l ++ [entry])
  | none => (key, [entry]) :: reg

/-- `SnapManager::deregister`: `e.retain(|e| e != entry)` on the key's role
list; the key is removed from the map when the list becomes empty; an
absent key (or an absent role) only produces a warning. -/
def deregister (reg : Registry) (key : SnapKey) (entry : SnapEntry) : Registry :=
  match lookupReg reg key with
  | some l =>
      let l2 := l.filter (fun e => e ≠ entry)
      if l2.isEmpty then eraseReg reg key else setReg reg key l2
  | none => reg

/-- Well-formedness of the registry: distinct keys, and every key maps to a
non-empty list of distinct roles (duplicates are prevented by `register`). -/
def RegWF (reg : Registry) : Prop :=
  (reg.map Prod.fst).Nodup ∧ ∀ p ∈ reg, p.2 ≠ [] ∧ p.2.Nodup

/-- `SnapManagerCore::delete_snapshot`: the returned boolean records whether
`snap.delete()` was invoked.  With `check_entry` the deletion is refused if
the key is registered under more than one role; without it, the deletion is
refused if the key is registered at all. -/
def deleteSnapshot (reg : Registry) (key : SnapKey) (checkEntry : Bool) : Bool :=
  if checkEntry then
    match lookupReg reg key with
    | some l => if l.length > 1 then false else true
    | none => true
  else
    match lookupReg reg key with
    | some _ => false
    | none => true

/-! Helper lemmas about the association-list operations. -/

theorem lookupReg_eq_none_cons {k : SnapKey} {l : List SnapEntry} {r : Registry}
    {key : SnapKey} (h : lookupReg ((k, l) :: r) key = none) :
    k ≠ key ∧ lookupReg r key = none := by
  by_cases hk : k = key
  · simp [lookupReg, hk] at h
  · simp [lookupReg, hk] at h
    exact ⟨hk, h⟩

theorem setReg_self {reg : Registry} {key : SnapKey} {l : List SnapEntry}
    (h : lookupReg reg key = some l) : setReg reg key l = reg := by
  induction reg with
  | nil => simp [setReg]
  | cons p r ih =>
      obtain ⟨k, v⟩ := p
      by_cases hk : k = key
      · simp [lookupReg, hk] at h
        simp [setReg, hk, h]
      · simp [lookupReg, hk] at h
        simp [setReg, hk, ih h]

theorem lookupReg_setReg_eq {reg : Registry} {key : SnapKey} {l v : List SnapEntry}
    (h : lookupReg reg key = some l) :
    lookupReg (setReg reg key v) key = some v := by
  induction reg with
  | nil => simp [lookupReg] at h
  | cons p r ih =>
      obtain ⟨k, w⟩ := p
      by_cases hk : k = key
      · simp [setReg, hk, lookupReg]
      · simp [lookupReg, hk] at h
        simp [setReg, hk, lookupReg, ih h]

theorem lookupReg_setReg_ne {reg : Registry} {key k2 : SnapKey} {v : List SnapEntry}
    (hne : k2 ≠ key) :
    lookupReg (setReg reg key v) k2 = lookupReg reg k2 := by
  induction reg with
  | nil => simp [setReg]
  | cons p r ih =>
      obtain ⟨k, w⟩ := p
      by_cases hk : k = key
      · subst hk
        simp [setReg, lookupReg, Ne.symm hne]
      · by_cases hk2 : k = k2
        · subst hk2
          simp [setReg, hk, lookupReg]
        · simp [setReg, hk, lookupReg, hk2, ih]

theorem lookupReg_eq_none_of_not_mem {reg : Registry} {key : SnapKey}
    (h : key ∉ reg.map Prod.fst) : lookupReg reg key = none := by
  induction reg with
  | nil => simp [lookupReg]
  | cons p r ih =>
      obtain ⟨k, w⟩ := p
      simp only [List.map_cons, List.mem_cons, not_or] at h
      simp only [lookupReg, if_neg (fun hk : k = key => h.1 hk.symm)]
      exact ih h.2

theorem lookupReg_eraseReg_self {reg : Registry} {key : SnapKey}
    (hnd : (reg.map Prod.fst).Nodup) :
    lookupReg (eraseReg reg key) key = none := by
  induction reg with
  | nil => simp [eraseReg, lookupReg]
  | cons p r ih =>
      obtain ⟨k, w⟩ := p
      simp only [List.map_cons, List.nodup_cons] at hnd
      by_cases hk : k = key
      · subst hk
        simp only [eraseReg, if_pos rfl]
        exact lookupReg_eq_none_of_not_mem hnd.1
      · simp only [eraseReg, if_neg hk, lookupReg, if_neg hk]
        exact ih hnd.2

theorem lookupReg_eraseReg_ne {reg : Registry} {key k2 : SnapKey}
    (hne : k2 ≠ key) :
    lookupReg (eraseReg reg key) k2 = lookupReg reg k2 := by
  induction reg with
  | nil => simp [eraseReg]
  | cons p r ih =>
      obtain ⟨k, w⟩ := p
      by_cases hk : k = key
      · subst hk
        simp [eraseReg, lookupReg, Ne.symm hne]
      · by_cases hk2 : k = k2
        · subst hk2
          simp [eraseReg, hk, lookupReg]
        · simp [eraseReg, hk, lookupReg, hk2, ih]

theorem lookupReg_mem {reg : Registry} {key : SnapKey} {l : List SnapEntry}
    (h : lookupReg reg key = some l) : (key, l) ∈ reg := by
  induction reg with
  | nil => simp [lookupReg] at h
  | cons p r ih =>
      obtain ⟨k, w⟩ := p
      by_cases hk : k = key
      · simp [lookupReg, hk] at h
        simp [hk, h]
      · simp [lookupReg, hk] at h
        simp [ih h]

theorem map_fst_setReg {reg : Registry} {key : SnapKey} {v : List SnapEntry} :
    (setReg reg key v).map Prod.fst = reg.map Prod.fst := by
  induction reg with
  | nil => simp [setReg]
  | cons p r ih =>
      obtain ⟨k, w⟩ := p
      by_cases hk : k = key
      · simp [setReg, hk]
      · simp [setReg, hk, ih]

theorem mem_setReg {reg : Registry} {key : SnapKey} {v : List SnapEntry}
    {p : SnapKey × List SnapEntry} (h : p ∈ setReg reg key v) :
    p.2 = v ∨ p ∈ reg := by
  induction reg with
  | nil => simp [setReg] at h
  | cons q r ih =>
      obtain ⟨k, w⟩ := q
      by_cases hk : k = key
      · simp only [setReg, if_pos hk] at h
        rcases List.mem_cons.mp h with h1 | h1
        · exact Or.inl (by simp [h1])
        · exact Or.inr (List.mem_cons_of_mem _ h1)
      · simp only [setReg, if_neg hk] at h
        rcases List.mem_cons.mp h with h1 | h1
        · exact Or.inr (by simp [h1])
        · rcases ih h1 with h2 | h2
          · exact Or.inl h2
          · exact Or.inr (List.mem_cons_of_mem _ h2)

theorem mem_eraseReg {reg : Registry} {key : SnapKey}
    {p : SnapKey × List SnapEntry} (h : p ∈ eraseReg reg key) : p ∈ reg := by
  induction reg with
  | nil => simp [eraseReg] at h
  | cons q r ih =>
      obtain ⟨k, w⟩ := q
      by_cases hk : k = key
      · simp only [eraseReg, if_pos hk] at h
        exact List.mem_cons_of_mem _ h
      · simp only [eraseReg, if_neg hk] at h
        rcases List.mem_cons.mp h with h1 | h1
        · exact by simp [h1]
        · exact List.mem_cons_of_mem _ (ih h1)

theorem map_fst_eraseReg_sublist {reg : Registry} {key : SnapKey} :
    ((eraseReg reg key).map Prod.fst).Sublist (reg.map Prod.fst) := by
  induction reg with
  | nil => simp [eraseReg]
  | cons q r ih =>
      obtain ⟨k, w⟩ := q
      by_cases hk : k = key
      · simp only [eraseReg, if_pos hk, List.map_cons]
        exact (List.Sublist.refl _).cons _
      · simp only [eraseReg, if_neg hk, List.map_cons]
        exact ih.cons₂ _

theorem not_mem_of_lookupReg_none {reg : Registry} {key : SnapKey}
    (h : lookupReg reg key = none) : key ∉ reg.map Prod.fst := by
  induction reg with
  | nil => simp
  | cons q r ih =>
      obtain ⟨k, w⟩ := q
      by_cases hk : k = key
      · simp [lookupReg, hk] at h
      · simp only [lookupReg, if_neg hk] at h
        simp only [List.map_cons, List.mem_cons, not_or]
        exact ⟨fun he => hk he.symm, ih h⟩

theorem filter_ne_of_not_mem {l : List SnapEntry} {entry : SnapEntry}
    (h : entry ∉ l) : l.filter (fun e => e ≠ entry) = l := by
  induction l with
  | nil => simp
  | cons a l ih =>
      simp only [List.mem_cons, not_or] at h
      have ha : ¬a = entry := fun he => h.1 he.symm
      simp only [List.filter_cons, ih h.2]
      simp [ha]

theorem filter_ne_length {l : List SnapEntry} {entry : SnapEntry}
    (hnd : l.Nodup) (hmem : entry ∈ l) :
    (l.filter (fun e => e ≠ entry)).length + 1 = l.length := by
  induction l with
  | nil => simp at hmem
  | cons a l ih =>
      rcases List.nodup_cons.mp hnd with ⟨ha, hl⟩
      by_cases he : a = entry
      · subst he
        have hfl : l.filter (fun e => e ≠ a) = l := filter_ne_of_not_mem ha
        have hd : ¬((fun e => decide (e ≠ a)) a = true) := by simp
        simp only [List.filter_cons]
        rw [if_neg hd, hfl, List.length_cons]
      · rcases List.mem_cons.mp hmem with h | h
        · exact absurd h.symm he
        · have hrec := ih hl h
          have hd : (fun e => decide (e ≠ entry)) a = true := by simp [he]
          simp only [List.filter_cons]
          rw [if_pos hd, List.length_cons, List.length_cons]
          omega

/-- C3: register of an already-present (key, role) pair is a no-op;
deregister of an absent pair is a no-op; deregister of a present pair
removes exactly that role (same other members, length one less, other keys
untouched); a key is purged exactly when its role list becomes empty; and
both operations preserve the registry invariant, so every key present in
the map maps to a non-empty role list. -/
theorem register_deregister_spec (reg : Registry) (key : SnapKey)
    (entry : SnapEntry) (hwf : RegWF reg) :
    (∀ l, lookupReg reg key = some l → entry ∈ l →
        register reg key entry = reg) ∧
    ((∀ l, lookupReg reg key = some l → entry ∉ l) →
        deregister reg key entry = reg) ∧
    (∀ l, lookupReg reg key = some l → entry ∈ l →
        (l.filter (fun e => e ≠ entry) = [] →
            lookupReg (deregister reg key entry) key = none) ∧
        (l.filter (fun e => e ≠ entry) ≠ [] →
            lookupReg (deregister reg key entry) key =
              some (l.filter (fun e => e ≠ entry))) ∧
        (∀ x, x ∈ l.filter (fun e => e ≠ entry) ↔ x ∈ l ∧ x ≠ entry) ∧
        (l.filter (fun e => e ≠ entry)).length + 1 = l.length ∧
        (∀ k2, k2 ≠ key →
            lookupReg (deregister reg key entry) k2 = lookupReg reg k2)) ∧
    RegWF (register reg key entry) ∧ RegWF (deregister reg key entry) := by
  refine ⟨?_, ?_, ?_, ?_, ?_⟩
  · intro l hl hm
    simp [register, hl, hm]
  · intro habs
    match hl : lookupReg reg key with
    | none => simp [deregister, hl]
    | some l =>
        have hnm := habs l hl
        have hfl := filter_ne_of_not_mem hnm
        have hne : l ≠ [] := ((hwf.2 _ (lookupReg_mem hl)).1)
        simp only [deregister, hl, hfl]
        rw [if_neg (by simpa [List.isEmpty_iff] using hne)]
        exact setReg_self hl
  · intro l hl hm
    have hnd := (hwf.2 _ (lookupReg_mem hl)).2
    refine ⟨?_, ?_, ?_, ?_, ?_⟩
    · intro hf
      simp only [deregister, hl, hf]
      rw [if_pos (by simp)]
      exact lookupReg_eraseReg_self hwf.1
    · intro hf
      simp only [deregister, hl]
      rw [if_neg (by simpa [List.isEmpty_iff] using hf)]
      exact lookupReg_setReg_eq hl
    · intro x
      simp [List.mem_filter]
    · exact filter_ne_length hnd hm
    · intro k2 hk2
      simp only [deregister, hl]
      by_cases hf : (l.filter (fun e => e ≠ entry)).isEmpty
      · rw [if_pos hf]
        exact lookupReg_eraseReg_ne hk2
      · rw [if_neg hf]
        exact lookupReg_setReg_ne hk2
  · match hl : lookupReg reg key with
    | none =>
        have hnm := not_mem_of_lookupReg_none hl
        constructor
        · simp only [register, hl, List.map_cons, List.nodup_cons]
          exact ⟨hnm, hwf.1⟩
        · intro p hp
          simp only [register, hl] at hp
          rcases List.mem_cons.mp hp with h1 | h1
          · subst h1
            exact ⟨by simp, by simp⟩
          · exact hwf.2 _ h1
    | some l =>
        by_cases hm : entry ∈ l
        · simpa [register, hl, hm] using hwf
        · constructor
          · simp only [register, hl, if_neg hm]
            rw [map_fst_setReg]
            exact hwf.1
          · intro p hp
            simp only [register, hl, if_neg hm] at hp
            rcases mem_setReg hp with h1 | h1
            · constructor
              · simp [h1]
              · rw [h1]
                have hnd := (hwf.2 _ (lookupReg_mem hl)).2
                simpa [List.nodup_append] using ⟨hnd, fun hc => hm hc⟩
            · exact hwf.2 _ h1
  · match hl : lookupReg reg key with
    | none => simpa [deregister, hl] using hwf
    | some l =>
        simp only [deregister, hl]
        by_cases hf : (l.filter (fun e => e ≠ entry)).isEmpty
        · rw [if_pos hf]
          constructor
          · exact hwf.1.sublist map_fst_eraseReg_sublist
          · intro p hp
            exact hwf.2 _ (mem_eraseReg hp)
        · rw [if_neg hf]
          constructor
          · rw [map_fst_setReg]
            exact hwf.1
          · intro p hp
            rcases mem_setReg hp with h1 | h1
            · constructor
              · rw [h1]
                intro hc
                rw [hc] at hf
                simp at hf
              · rw [h1]
                exact ((hwf.2 _ (lookupReg_mem hl)).2).filter _
            · exact hwf.2 _ h1

/-- Witness for C3 at a concrete registry. -/
theorem register_deregister_spec_witness :
    RegWF [(⟨1, 2, 3⟩, [SnapEntry.sending])] ∧
    register [(⟨1, 2, 3⟩, [SnapEntry.sending])] ⟨1, 2, 3⟩ SnapEntry.sending =
      [(⟨1, 2, 3⟩, [SnapEntry.sending])] := by
  have hwf : RegWF [((⟨1, 2, 3⟩ : SnapKey), [SnapEntry.sending])] := by
    constructor
    · decide
    · decide
  exact ⟨hwf,
    (register_deregister_spec [(⟨1, 2, 3⟩, [SnapEntry.sending])] ⟨1, 2, 3⟩
          SnapEntry.sending hwf).1
      [SnapEntry.sending] (by decide) (by decide)⟩

/-- C7: with `check_entry` the deletion is refused (returns false, nothing
deleted) exactly when the key is registered under more than one role;
without `check_entry` it is refused exactly when the key is registered
under any role; otherwise `snap.delete()` runs and true is returned. -/
theorem delete_snapshot_spec (reg : Registry) (key : SnapKey) :
    (deleteSnapshot reg key true = false ↔
      ∃ l, lookupReg reg key = some l ∧ 1 < l.length) ∧
    (deleteSnapshot reg key false = false ↔ (lookupReg reg key).isSome = true) := by
  constructor
  · cases hl : lookupReg reg key with
    | none => simp [deleteSnapshot, hl]
    | some l =>
        by_cases hlen : l.length > 1
        · simp [deleteSnapshot, hl, hlen]
        · simp only [deleteSnapshot, if_pos rfl, hl, if_neg hlen]
          constructor
          · intro h
            exact absurd h (by simp)
          · rintro ⟨l2, hl2, hlen2⟩
            cases Option.some.inj hl2
            exact absurd hlen2 hlen
  · cases hl : lookupReg reg key with
    | none => simp [deleteSnapshot, hl]
    | some l => simp [deleteSnapshot, hl]

/-!
## Disk-quota eviction (`SnapManager::get_snapshot_for_building`)

The snapshot directory is abstracted as the list of snapshots it holds,
each with its key, total file size, meta-file modification time, whether
its name carries the sending (`gen`) tag, and whether it is currently
registered.  `list_idle_snap` keeps unregistered keys; the loop of
`get_snapshot_for_building` keeps the sending ones among them, opens them
for sending, sorts by `Reverse(modified)` and pops from the end of the
sorted vector, so candidates are consumed in ascending modification-time
order (ties are left unspecified, as in the source's stable sort).
-/

structure SnapInfo where
  key : SnapKey
  size : Nat
  modified : Nat
  sending : Bool
  registered : Bool
deriving DecidableEq, Repr

/-- `SnapManagerCore::get_total_snap_size`: sizes of all snapshot files in
the base directory (clone and meta files are already excluded from
`SnapInfo.size`). -/
def totalSnapSize (present : List SnapInfo) : Nat :=
  (present.map SnapInfo.size).sum

/-- The candidates gathered on the first loop iteration: idle
(unregistered) snapshots whose name carries the sending tag. -/
def idleSending (present : List SnapInfo) : List SnapInfo :=
  present.filter (fun s => !s.registered && s.sending)

/-- Insert into a list kept in descending modification-time order. -/
def insertDescByModified (a : SnapInfo) : List SnapInfo → List SnapInfo
  | [] => [a]
  | b :: l =>
      if b.modified < a.modified then a :: b :: l
      else b :: insertDescByModified a l

/-- `key_and_snaps.sort_by_key(|&(_, _, modified)| Reverse(modified))`. -/
def sortDescByModified (l : List SnapInfo) : List SnapInfo :=
  l.foldr insertDescByModified []

/-- The order in which `get_snapshot_for_building` evicts candidates:
`pop` from the end of the descending-sorted vector, i.e. the reverse of
the sorted list. -/
def evictionOrder (present : List SnapInfo) : List SnapInfo :=
  (sortDescByModified (idleSending present)).reverse

/-- `delete_snapshot(&key, snap, false)` on an idle snapshot: its files
disappear from the directory. -/
def deleteSnapFiles (present : List SnapInfo) (c : SnapInfo) : List SnapInfo :=
  present.filter (fun s => s.key ≠ c.key)

inductive SnapError where
  | tooManySnapshots
deriving DecidableEq, Repr

/-- The `while get_total_snap_size()? > max_total_snap_size()` loop of
`get_snapshot_for_building`, after the candidate list has been fixed. -/
def evictLoop (quota : Nat) :
    List SnapInfo → List SnapInfo → Except SnapError (List SnapInfo)
  | [], present =>
      if totalSnapSize present ≤ quota then .ok present
      else .error .tooManySnapshots
  | c :: rest, present =>
      if totalSnapSize present ≤ quota then .ok present
      else evictLoop quota rest (deleteSnapFiles present c)

/-- `SnapManager::get_snapshot_for_building`, returning the directory
contents left after quota enforcement (the freshly built snapshot itself
is created afterwards and is not part of the quota check). -/
def getSnapshotForBuilding (quota : Nat) (present : List SnapInfo) :
    Except SnapError (List SnapInfo) :=
  evictLoop quota (evictionOrder present) present

theorem mem_insertDescByModified {a x : SnapInfo} {l : List SnapInfo} :
    x ∈ insertDescByModified a l ↔ x = a ∨ x ∈ l := by
  induction l with
  | nil => simp [insertDescByModified]
  | cons b l ih =>
      by_cases hb : b.modified < a.modified
      · simp [insertDescByModified, hb]
      · simp only [insertDescByModified, if_neg hb, List.mem_cons, ih]
        tauto

theorem pairwise_insertDescByModified {a : SnapInfo} {l : List SnapInfo}
    (h : l.Pairwise (fun x y => y.modified ≤ x.modified)) :
    (insertDescByModified a l).Pairwise (fun x y => y.modified ≤ x.modified) := by
  induction l with
  | nil => simp [insertDescByModified]
  | cons b l ih =>
      rcases List.pairwise_cons.mp h with ⟨hb, hl⟩
      by_cases hlt : b.modified < a.modified
      · simp only [insertDescByModified, if_pos hlt]
        refine List.pairwise_cons.mpr ⟨?_, h⟩
        intro y hy
        rcases List.mem_cons.mp hy with h1 | h1
        · subst h1
          omega
        · have := hb y h1
          omega
      · simp only [insertDescByModified, if_neg hlt]
        refine List.pairwise_cons.mpr ⟨?_, ih hl⟩
        intro y hy
        rcases mem_insertDescByModified.mp hy with h1 | h1
        · subst h1
          omega
        · exact hb y h1

theorem pairwise_sortDescByModified (l : List SnapInfo) :
    (sortDescByModified l).Pairwise (fun x y => y.modified ≤ x.modified) := by
  induction l with
  | nil => simp [sortDescByModified]
  | cons a l ih => exact pairwise_insertDescByModified ih

theorem mem_sortDescByModified {x : SnapInfo} {l : List SnapInfo} :
    x ∈ sortDescByModified l ↔ x ∈ l := by
  induction l with
  | nil => simp [sortDescByModified]
  | cons a l ih =>
      simp only [sortDescByModified, List.foldr_cons]
      rw [mem_insertDescByModified]
      simp only [sortDescByModified] at ih
      rw [ih, List.mem_cons]

theorem evictLoop_ok {quota : Nat} {cands present res : List SnapInfo}
    (h : evictLoop quota cands present = .ok res) :
    totalSnapSize res ≤ quota ∧
      ∃ k, res = List.foldl deleteSnapFiles present (cands.take k) := by
  induction cands generalizing present with
  | nil =>
      rw [evictLoop] at h
      by_cases hq : totalSnapSize present ≤ quota
      · rw [if_pos hq] at h
        cases h
        exact ⟨hq, 0, by simp⟩
      · rw [if_neg hq] at h
        cases h
  | cons c rest ih =>
      rw [evictLoop] at h
      by_cases hq : totalSnapSize present ≤ quota
      · rw [if_pos hq] at h
        cases h
        exact ⟨hq, 0, by simp⟩
      · rw [if_neg hq] at h
        rcases ih h with ⟨h1, k, h2⟩
        exact ⟨h1, k + 1, by simpa using h2⟩

theorem evictLoop_err {quota : Nat} {cands present : List SnapInfo}
    {e : SnapError} (h : evictLoop quota cands present = .error e) :
    quota < totalSnapSize (List.foldl deleteSnapFiles present cands) := by
  induction cands generalizing present with
  | nil =>
      rw [evictLoop] at h
      by_cases hq : totalSnapSize present ≤ quota
      · rw [if_pos hq] at h
        cases h
      · rw [if_neg hq] at h
        simpa using hq
  | cons c rest ih =>
      rw [evictLoop] at h
      by_cases hq : totalSnapSize present ≤ quota
      · rw [if_pos hq] at h
        cases h
      · rw [if_neg hq] at h
        simpa using ih h

/-- C2: if the directory is within the quota, nothing is evicted and the
build proceeds; otherwise candidates — idle sending snapshots only — are
evicted in ascending modification-time order (the list-processing order is
sorted oldest first), the loop stops as soon as total size is within the
quota, and if all candidates are exhausted while still over quota it fails
with the TooManySnapshots error. -/
theorem get_snapshot_for_building_spec (quota : Nat) (present : List SnapInfo) :
    (totalSnapSize present ≤ quota →
        getSnapshotForBuilding quota present = .ok present) ∧
    List.Sorted (fun a b => a.modified ≤ b.modified) (evictionOrder present) ∧
    (∀ c ∈ evictionOrder present, c.sending = true ∧ c.registered = false) ∧
    (∀ res, getSnapshotForBuilding quota present = .ok res →
        totalSnapSize res ≤ quota ∧
        ∃ k, res = List.foldl deleteSnapFiles present
          ((evictionOrder present).take k)) ∧
    (getSnapshotForBuilding quota present = .error .tooManySnapshots →
        quota < totalSnapSize
          (List.foldl deleteSnapFiles present (evictionOrder present))) := by
  refine ⟨?_, ?_, ?_, ?_, ?_⟩
  · intro hq
    rw [getSnapshotForBuilding]
    cases evictionOrder present with
    | nil => rw [evictLoop, if_pos hq]
    | cons c rest => rw [evictLoop, if_pos hq]
  · rw [evictionOrder, List.Sorted]
    rw [List.pairwise_reverse]
    exact pairwise_sortDescByModified _
  · intro c hc
    rw [evictionOrder, List.mem_reverse] at hc
    have := mem_sortDescByModified.mp hc
    rw [idleSending, List.mem_filter] at this
    rcases this with ⟨_, hcond⟩
    simp only [Bool.and_eq_true, Bool.not_eq_true'] at hcond
    exact ⟨hcond.2, hcond.1⟩
  · intro res h
    exact evictLoop_ok h
  · intro h
    exact evictLoop_err h

/-- Witness for C2: a directory within the quota is returned untouched. -/
theorem get_snapshot_for_building_spec_witness :
    getSnapshotForBuilding 100 [⟨⟨1, 1, 1⟩, 50, 7, true, false⟩] =
      .ok [⟨⟨1, 1, 1⟩, 50, 7, true, false⟩] :=
  (get_snapshot_for_building_spec 100 [⟨⟨1, 1, 1⟩, 50, 7, true, false⟩]).1
    (by decide)

/-!
## On-disk snapshot state (`Snapshot::exists`, `Snapshot::validate`,
`Snapshot::do_build`)

A built snapshot is its recorded per-CF chunk metadata (`size` and
`checksum`, the parallel arrays of `CfFile`) together with the on-disk
status of each recorded chunk path (`file_paths()` is a pure function of
the recorded chunk arrays, so the disk is abstracted as one status record
per recorded chunk) and the presence of the meta file.
-/

structure DiskFile where
  present : Bool
  actualSize : Nat
  actualCrc : Nat
deriving DecidableEq, Repr, Inhabited

structure CfFileDisk where
  sizes : List Nat
  checksums : List Nat
  files : List DiskFile
deriving DecidableEq, Repr, Inhabited

structure SnapDisk where
  cfs : List CfFileDisk
  metaPresent : Bool
deriving DecidableEq, Repr

/-- `Snapshot::exists`: every CF either records no chunk or has all its
recorded chunk files on disk, and the meta file is present. -/
def snapExists (d : SnapDisk) : Bool :=
  (d.cfs.all fun cf => cf.sizes.isEmpty || cf.files.all (fun f => f.present))
    && d.metaPresent

/-- `check_file_size_and_checksum`: recompute size and CRC32 of the on-disk
file and compare with the recorded values (a missing file fails the
recomputation, so it also fails the check). -/
def checkFileSizeAndChecksum (f : DiskFile) (sz ck : Nat) : Bool :=
  f.present && f.actualSize == sz && f.actualCrc == ck

/-- `Snapshot::validate` on one CF: chunks with recorded size 0 are
skipped, all others must match their recorded size and checksum. -/
def validateCf (cf : CfFileDisk) : Bool :=
  (List.range cf.files.length).all fun i =>
    cf.sizes.getD i 0 == 0 ||
      checkFileSizeAndChecksum (cf.files.getD i default)
        (cf.sizes.getD i 0) (cf.checksums.getD i 0)

/-- `Snapshot::validate` (with a trivial post-check, as used by
`do_build`; `apply` additionally clones each chunk in its post-check). -/
def validateOk (d : SnapDisk) : Bool :=
  d.cfs.all validateCf

/-- `Snapshot::delete`: all chunk files and the meta file disappear. -/
def deleteSnapDisk (d : SnapDisk) : SnapDisk :=
  { cfs := d.cfs.map fun cf =>
      { cf with files := cf.files.map fun f => { f with present := false } },
    metaPresent := false }

/-- `Snapshot::do_build`: if the snapshot already exists on disk, validate
it; on success return without touching any file.  On validation failure,
delete and rebuild (`retry_delete_snapshot` refuses while the key is
registered elsewhere, in which case the validation error is surfaced).
The rebuild path (engine scan, per-CF builders, meta persistence) is kept
abstract as a function argument. -/
def doBuild (rebuild : SnapDisk → Except Unit SnapDisk) (canDelete : Bool)
    (d : SnapDisk) : Except Unit SnapDisk :=
  if snapExists d then
    if validateOk d then .ok d
    else if canDelete then rebuild (deleteSnapDisk d)
    else .error ()
  else rebuild d

/-- C4: building a snapshot that already exists on disk and whose chunks
all pass size/checksum validation is a no-op returning success with the
on-disk state unchanged (for every rebuild strategy and registry state),
and a second build of the same snapshot succeeds again without change. -/
theorem do_build_idempotent (rebuild : SnapDisk → Except Unit SnapDisk)
    (canDelete : Bool) (d : SnapDisk)
    (hex : snapExists d = true) (hval : validateOk d = true) :
    doBuild rebuild canDelete d = .ok d ∧
      (doBuild rebuild canDelete d).bind (doBuild rebuild canDelete) = .ok d := by
  have h1 : doBuild rebuild canDelete d = .ok d := by
    rw [doBuild, if_pos hex, if_pos hval]
  refine ⟨h1, ?_⟩
  rw [h1]
  simpa [Except.bind] using h1

/-- Witness for C4: a one-chunk snapshot matching its recorded metadata. -/
theorem do_build_idempotent_witness :
    doBuild Except.ok true
        ⟨[⟨[5], [9], [⟨true, 5, 9⟩]⟩], true⟩ =
      .ok ⟨[⟨[5], [9], [⟨true, 5, 9⟩]⟩], true⟩ :=
  (do_build_idempotent Except.ok true ⟨[⟨[5], [9], [⟨true, 5, 9⟩]⟩], true⟩
      (by decide) (by decide)).1

/-- C6: whenever the disk status tracks the recorded chunks one-to-one and
every recorded chunk size is positive (as `set_snapshot_meta` guarantees
for snapshots it accepts), `exists()` returns true iff the meta file is
present and every chunk with positive recorded size is present on disk. -/
theorem exists_iff_meta_and_chunks (d : SnapDisk)
    (hlen : ∀ cf ∈ d.cfs, cf.files.length = cf.sizes.length)
    (hpos : ∀ cf ∈ d.cfs, ∀ sz ∈ cf.sizes, 0 < sz) :
    snapExists d = true ↔
      (d.metaPresent = true ∧
        ∀ cf ∈ d.cfs, ∀ i, i < cf.sizes.length →
          0 < cf.sizes.getD i 0 → (cf.files.getD i default).present = true) := by
  rw [snapExists, Bool.and_eq_true, List.all_eq_true]
  constructor
  · rintro ⟨hall, hmeta⟩
    refine ⟨hmeta, ?_⟩
    intro cf hcf i hi _
    have h2 := hall cf hcf
    rw [Bool.or_eq_true] at h2
    rcases h2 with hemp | hfiles
    · rw [List.isEmpty_iff] at hemp
      rw [hemp] at hi
      simp at hi
    · rw [List.all_eq_true] at hfiles
      have hif : i < cf.files.length := by rw [hlen cf hcf]; exact hi
      rw [List.getD_eq_getElem _ _ hif]
      exact hfiles _ (List.getElem_mem hif)
  · rintro ⟨hmeta, hall⟩
    refine ⟨?_, hmeta⟩
    intro cf hcf
    rw [Bool.or_eq_true]
    by_cases hemp : cf.sizes.isEmpty = true
    · exact Or.inl hemp
    · refine Or.inr ?_
      rw [List.all_eq_true]
      intro f hf
      rcases List.mem_iff_getElem.mp hf with ⟨i, hif, hfi⟩
      have hi : i < cf.sizes.length := by rw [← hlen cf hcf]; exact hif
      have hsz : 0 < cf.sizes.getD i 0 := by
        rw [List.getD_eq_getElem _ _ hi]
        exact hpos cf hcf _ (List.getElem_mem hi)
      have hpres := hall cf hcf i hi hsz
      rw [List.getD_eq_getElem _ _ hif, hfi] at hpres
      exact hpres

/-- Witness for C6: a snapshot with one positive-size chunk on disk. -/
theorem exists_iff_meta_and_chunks_witness :
    snapExists ⟨[⟨[5], [9], [⟨true, 5, 9⟩]⟩], true⟩ = true :=
  (exists_iff_meta_and_chunks ⟨[⟨[5], [9], [⟨true, 5, 9⟩]⟩], true⟩
        (by decide) (by decide)).mpr
    ⟨rfl, by decide⟩

/-!
## Chunked SST building (`snap_io::build_sst_cf_file_list`)

The scan feeds key/value pairs to the current SST writer; only the raw
entry length `key.len() + value.len()` is relevant to chunking, so the
scanned data is abstracted as the list of entry lengths.  `file_length`
is the sum of the lengths already written to the current chunk.  A new
chunk file is opened when `file_length + entry_len > raw_size_per_file`;
the triggering entry goes to the new file.  After the scan the current
file is recorded if any key was seen, otherwise the single created file
is removed and no chunk is recorded.
-/

structure BuildStatistics where
  keyCount : Nat
  totalSize : Nat
deriving DecidableEq, Repr

/-- The scan closure of `build_sst_cf_file_list`: remaining entries,
current chunk contents, finished chunks, accumulated statistics. -/
def sstLoop (b : Nat) :
    List Nat → List Nat → List (List Nat) → BuildStatistics →
      (List (List Nat) × List Nat) × BuildStatistics
  | [], cur, done, stats => ((done, cur), stats)
  | e :: rest, cur, done, stats =>
      if cur.sum + e > b then
        sstLoop b rest [e] (done ++ [cur]) ⟨stats.keyCount + 1, stats.totalSize + e⟩
      else
        sstLoop b rest (cur ++ [e]) done ⟨stats.keyCount + 1, stats.totalSize + e⟩

/-- `build_sst_cf_file_list`, returning the recorded chunks (each as its
list of raw entry lengths) and the returned `BuildStatistics`. -/
def buildSstCfFileList (b : Nat) (entries : List Nat) :
    List (List Nat) × BuildStatistics :=
  let r := sstLoop b entries [] [] ⟨0, 0⟩
  if r.2.keyCount > 0 then (r.1.1 ++ [r.1.2], r.2) else ([], r.2)

def U64MAX : Nat := 2 ^ 64 - 1

/-- `SnapManager::set_max_per_file_size`: a configured value of 0 means
unlimited and is stored as `u64::MAX`. -/
def setMaxPerFileSize (v : Nat) : Nat :=
  if v = 0 then U64MAX else v

/-- Every emitted chunk stays within the raw-size budget unless it is a
single entry that alone exceeds the budget. -/
def chunkOk (b : Nat) (c : List Nat) : Prop :=
  c.sum ≤ b ∨ c.length = 1

/-- Adjacent chunks witness the boundary policy: the first entry of each
later chunk would have pushed the previous chunk over the budget. -/
def adjOk (b : Nat) : List (List Nat) → Prop
  | [] => True
  | [_] => True
  | c1 :: c2 :: rest => c1.sum + c2.headD 0 > b ∧ adjOk b (c2 :: rest)

theorem adjOk_cons {b : Nat} {x : List Nat} {l : List (List Nat)}
    (hl : adjOk b l)
    (hx : ∀ z rest, l = z :: rest → x.sum + z.headD 0 > b) :
    adjOk b (x :: l) := by
  cases l with
  | nil => simp [adjOk]
  | cons z rest => exact ⟨hx z rest rfl, hl⟩

theorem adjOk_cons_elim {b : Nat} {x : List Nat} {l : List (List Nat)}
    (h : adjOk b (x :: l)) :
    adjOk b l ∧ ∀ z rest, l = z :: rest → x.sum + z.headD 0 > b := by
  cases l with
  | nil => exact ⟨trivial, by intro z rest hz; cases hz⟩
  | cons z rest =>
      exact ⟨h.2, by intro z2 rest2 hz; cases hz; exact h.1⟩

theorem adjOk_append_last {b : Nat} (l : List (List Nat)) (c y : List Nat)
    (h : adjOk b (l ++ [c])) (hy : c.sum + y.headD 0 > b) :
    adjOk b ((l ++ [c]) ++ [y]) := by
  induction l with
  | nil => simpa [adjOk] using hy
  | cons x l ih =>
      rcases adjOk_cons_elim (by simpa using h) with ⟨h1, h2⟩
      have hrec := ih h1
      refine adjOk_cons (by simpa using hrec) ?_
      intro z rest hz
      cases l with
      | nil =>
          cases hz
          exact h2 c [] rfl
      | cons w l2 =>
          have hzw : w = z := by
            have h3 := congrArg (fun t => t.headD ([] : List Nat)) hz
            simpa using h3
          rw [← hzw]
          exact h2 w (l2 ++ [c]) rfl

theorem adjOk_replaceLast {b : Nat} (l : List (List Nat)) (c c2 : List Nat)
    (hh : c.headD 0 = c2.headD 0) (h : adjOk b (l ++ [c])) :
    adjOk b (l ++ [c2]) := by
  induction l with
  | nil => simp [adjOk]
  | cons x l ih =>
      rcases adjOk_cons_elim (by simpa using h) with ⟨h1, h2⟩
      refine adjOk_cons (by simpa using ih h1) ?_
      intro z rest hz
      cases l with
      | nil =>
          cases hz
          rw [← hh]
          exact h2 c [] rfl
      | cons w l2 =>
          have hzw : w = z := by
            have h3 := congrArg (fun t => t.headD ([] : List Nat)) hz
            simpa using h3
          rw [← hzw]
          exact h2 w (l2 ++ [c]) rfl

theorem sstLoop_stats {b : Nat} (rem : List Nat) (cur : List Nat)
    (done : List (List Nat)) (stats : BuildStatistics) :
    (sstLoop b rem cur done stats).2 =
      ⟨stats.keyCount + rem.length, stats.totalSize + rem.sum⟩ := by
  induction rem generalizing cur done stats with
  | nil => simp [sstLoop]
  | cons e rest ih =>
      rw [sstLoop]
      by_cases hs : cur.sum + e > b
      · rw [if_pos hs, ih]
        simp only [List.length_cons, List.sum_cons]
        congr 1 <;> omega
      · rw [if_neg hs, ih]
        simp only [List.length_cons, List.sum_cons]
        congr 1 <;> omega

theorem sstLoop_flatten {b : Nat} (rem : List Nat) (cur : List Nat)
    (done : List (List Nat)) (stats : BuildStatistics) :
    ((sstLoop b rem cur done stats).1.1).flatten ++ (sstLoop b rem cur done stats).1.2 =
      done.flatten ++ cur ++ rem := by
  induction rem generalizing cur done stats with
  | nil => simp [sstLoop]
  | cons e rest ih =>
      rw [sstLoop]
      by_cases hs : cur.sum + e > b
      · rw [if_pos hs, ih]
        simp
      · rw [if_neg hs, ih]
        simp

theorem sstLoop_chunks {b : Nat} (rem : List Nat) (cur : List Nat)
    (done : List (List Nat)) (stats : BuildStatistics)
    (hok : ∀ c ∈ done, chunkOk b c) (hcur : chunkOk b cur)
    (hadj : adjOk b (done ++ [cur])) (hne : done = [] ∨ cur ≠ []) :
    (∀ c ∈ (sstLoop b rem cur done stats).1.1, chunkOk b c) ∧
      chunkOk b (sstLoop b rem cur done stats).1.2 ∧
      adjOk b ((sstLoop b rem cur done stats).1.1 ++
        [(sstLoop b rem cur done stats).1.2]) := by
  induction rem generalizing cur done stats with
  | nil =>
      rw [sstLoop]
      exact ⟨hok, hcur, hadj⟩
  | cons e rest ih =>
      rw [sstLoop]
      by_cases hs : cur.sum + e > b
      · rw [if_pos hs]
        refine ih [e] (done ++ [cur]) _ ?_ ?_ ?_ ?_
        · intro c hc
          rcases List.mem_append.mp hc with h1 | h1
          · exact hok c h1
          · rw [List.mem_singleton.mp h1]
            exact hcur
        · exact Or.inr rfl
        · exact adjOk_append_last done cur [e] hadj (by simpa using hs)
        · exact Or.inr (by simp)
      · rw [if_neg hs]
        refine ih (cur ++ [e]) done _ hok ?_ ?_ ?_
        · exact Or.inl (by simp; omega)
        · rcases hne with hd | hc
          · subst hd
            simp [adjOk]
          · refine adjOk_replaceLast done cur (cur ++ [e]) ?_ hadj
            cases cur with
            | nil => exact absurd rfl hc
            | cons a l => simp
        · exact Or.inr (by simp)

theorem sstLoop_nosplit {b : Nat} (rem : List Nat) (cur : List Nat)
    (done : List (List Nat)) (stats : BuildStatistics)
    (h : cur.sum + rem.sum ≤ b) :
    (sstLoop b rem cur done stats).1.1 = done ∧
      (sstLoop b rem cur done stats).1.2 = cur ++ rem := by
  induction rem generalizing cur stats with
  | nil => simp [sstLoop]
  | cons e rest ih =>
      rw [sstLoop]
      have hs : ¬cur.sum + e > b := by
        simp only [List.sum_cons] at h
        omega
      rw [if_neg hs]
      have := ih (cur ++ [e]) ⟨stats.keyCount + 1, stats.totalSize + e⟩
        (by simp only [List.sum_cons] at h; simp; omega)
      simpa using this

/-- C5: `build_sst_cf_file_list` partitions the scanned data into the
recorded chunks (so the sum of per-chunk raw sizes and the total key
count equal the unlimited-budget totals, and the statistics are
budget-independent); a chunk exceeds the budget only when it is a single
oversized entry; each later chunk starts exactly because its first entry
would have pushed the previous chunk over the budget; and a configured
budget of 0 (stored as `u64::MAX`) never splits data whose total size
fits in a `u64`. -/
theorem build_sst_cf_file_list_spec (b : Nat) (entries : List Nat) :
    ((buildSstCfFileList b entries).1).flatten = entries ∧
    (buildSstCfFileList b entries).2 =
      (buildSstCfFileList (setMaxPerFileSize 0) entries).2 ∧
    (((buildSstCfFileList b entries).1).map List.sum).sum =
      (buildSstCfFileList (setMaxPerFileSize 0) entries).2.totalSize ∧
    (((buildSstCfFileList b entries).1).map List.length).sum =
      (buildSstCfFileList (setMaxPerFileSize 0) entries).2.keyCount ∧
    (∀ c ∈ (buildSstCfFileList b entries).1, chunkOk b c) ∧
    adjOk b (buildSstCfFileList b entries).1 ∧
    (entries.sum ≤ setMaxPerFileSize 0 →
      (buildSstCfFileList (setMaxPerFileSize 0) entries).1 =
        if entries.isEmpty then [] else [entries]) := by
  have hstats : ∀ b2, (buildSstCfFileList b2 entries).2 =
      ⟨entries.length, entries.sum⟩ := by
    intro b2
    rw [buildSstCfFileList]
    simp only [sstLoop_stats]
    by_cases hk : entries.length > 0
    · simp [hk]
    · simp [hk]
  have hjoin : ((buildSstCfFileList b entries).1).flatten = entries := by
    rw [buildSstCfFileList]
    simp only [sstLoop_stats]
    by_cases hk : entries.length > 0
    · simp only [Nat.zero_add, hk, if_pos]
      have := sstLoop_flatten (b := b) entries [] [] ⟨0, 0⟩
      simpa using this
    · have : entries = [] := by
        cases entries with
        | nil => rfl
        | cons a l => simp at hk
      subst this
      simp
  refine ⟨hjoin, by rw [hstats b, hstats], ?_, ?_, ?_, ?_, ?_⟩
  · rw [hstats]
    show (((buildSstCfFileList b entries).1).map List.sum).sum = entries.sum
    conv_rhs => rw [← hjoin]
    exact List.sum_flatten.symm
  · rw [hstats]
    show (((buildSstCfFileList b entries).1).map List.length).sum = entries.length
    conv_rhs => rw [← hjoin]
    exact (List.length_flatten _).symm
  · intro c hc
    have hch := sstLoop_chunks (b := b) entries [] [] ⟨0, 0⟩
      (by simp) (Or.inl (by simp)) (by simp [adjOk]) (Or.inl rfl)
    rw [buildSstCfFileList] at hc
    by_cases hk : (sstLoop b entries [] [] ⟨0, 0⟩).2.keyCount > 0
    · rw [if_pos hk] at hc
      rcases List.mem_append.mp hc with h1 | h1
      · exact hch.1 c h1
      · rw [List.mem_singleton.mp h1]
        exact hch.2.1
    · rw [if_neg hk] at hc
      simp at hc
  · have hch := sstLoop_chunks (b := b) entries [] [] ⟨0, 0⟩
      (by simp) (Or.inl (by simp)) (by simp [adjOk]) (Or.inl rfl)
    rw [buildSstCfFileList]
    by_cases hk : (sstLoop b entries [] [] ⟨0, 0⟩).2.keyCount > 0
    · rw [if_pos hk]
      exact hch.2.2
    · rw [if_neg hk]
      simp [adjOk]
  · intro hsum
    have hns := sstLoop_nosplit (b := setMaxPerFileSize 0) entries [] [] ⟨0, 0⟩
      (by simpa using hsum)
    rw [buildSstCfFileList]
    simp only [sstLoop_stats]
    cases entries with
    | nil => simp
    | cons a l =>
        simp only [List.isEmpty_cons, Nat.zero_add]
        rw [if_pos (by simp)]
        rw [hns.1, hns.2]
        simp

/-- Witness for C5 at a concrete budget and data set. -/
theorem build_sst_cf_file_list_spec_witness :
    ((buildSstCfFileList 4 [2, 3]).1).flatten = [2, 3] ∧
    (buildSstCfFileList (setMaxPerFileSize 0) [2, 3]).1 = [[2, 3]] := by
  refine ⟨(build_sst_cf_file_list_spec 4 [2, 3]).1, ?_⟩
  have h := (build_sst_cf_file_list_spec 4 [2, 3]).2.2.2.2.2.2 (by decide)
  simpa using h

/-!
## Snapshot file-name parsing and display
(`SnapManager::list_idle_snap`, `TabletSnapKey::from_path`, `Display`)

A file name is modelled up to underscore splitting: the part before the
first dot is the list of its `_`-separated tokens, each token being its
list of character codes (decimal digits are the values 0–9).  `Display`
for `SnapKey` renders `region_term_idx` and for `TabletSnapKey`
`region_toPeer_term_idx`, so an on-disk name is the tag token (`gen` /
`rev`) followed by the decimal fields.  `str::parse::<u64>` succeeds on a
non-empty all-digit token whose value fits in a `u64`.
-/

/-- Decimal rendering of one `u64` field (big-endian digit list), as
produced by `Display` with `{}`. -/
def decDigits (n : Nat) : List Nat :=
  if n = 0 then [0] else (Nat.digits 10 n).reverse

/-- `str::parse::<u64>()` on one token (without sign handling, which the
renderer never produces): every character must be a decimal digit, the
token must be non-empty, and the value must fit in a `u64`. -/
def parseU64 (tok : List Nat) : Option Nat :=
  if tok = [] then none
  else if tok.all (fun d => d < 10) then
    let n := Nat.ofDigits 10 tok.reverse
    if n < 2 ^ 64 then some n else none
  else none

/-- The key-parsing step of `list_idle_snap`: skip the tag token, keep the
tokens that parse as `u64`, require at least 3 of them, and build the key
from the first three. -/
def parseSnapKeyName (tokens : List (List Nat)) : Option SnapKey :=
  match (tokens.drop 1).filterMap parseU64 with
  | a :: b :: c :: _ => some ⟨a, b, c⟩
  | _ => none

/-- `TabletSnapKey::from_path`: same scheme with at least 4 numeric
fields. -/
def parseTabletSnapKeyName (tokens : List (List Nat)) : Option TabletSnapKey :=
  match (tokens.drop 1).filterMap parseU64 with
  | a :: b :: c :: d :: _ => some ⟨a, b, c, d⟩
  | _ => none

/-- An on-disk snapshot file name for a key: the `gen`/`rev` tag token
followed by the `Display` rendering of the key. -/
def snapKeyNameTokens (tag : List Nat) (k : SnapKey) : List (List Nat) :=
  [tag, decDigits k.regionId, decDigits k.term, decDigits k.idx]

def tabletSnapKeyNameTokens (tag : List Nat) (k : TabletSnapKey) :
    List (List Nat) :=
  [tag, decDigits k.regionId, decDigits k.toPeer, decDigits k.term,
    decDigits k.idx]

theorem parseU64_decDigits {n : Nat} (h : n < 2 ^ 64) :
    parseU64 (decDigits n) = some n := by
  by_cases h0 : n = 0
  · subst h0
    rw [decDigits, if_pos rfl, parseU64]
    norm_num
  · rw [decDigits, if_neg h0, parseU64]
    have hne : (Nat.digits 10 n).reverse ≠ [] := by
      simp [Nat.digits_ne_nil_iff_ne_zero, h0]
    rw [if_neg hne]
    have hdig : (Nat.digits 10 n).reverse.all (fun d => d < 10) = true := by
      rw [List.all_eq_true]
      intro d hd
      rw [List.mem_reverse] at hd
      simpa using Nat.digits_lt_base (by norm_num) hd
    rw [if_pos hdig]
    rw [List.reverse_reverse, Nat.ofDigits_digits]
    rw [if_pos h]

/-- C8: parsing an on-disk name succeeds exactly when at least 3 (SnapKey)
resp. 4 (TabletSnapKey) tokens after the tag parse as `u64` numbers —
fewer fields is a format error — and parsing the rendered name of any key
returns that key. -/
theorem snap_name_parse_spec (tokens : List (List Nat)) (tag : List Nat)
    (k : SnapKey) (t : TabletSnapKey)
    (hk1 : k.regionId < 2 ^ 64) (hk2 : k.term < 2 ^ 64) (hk3 : k.idx < 2 ^ 64)
    (ht1 : t.regionId < 2 ^ 64) (ht2 : t.toPeer < 2 ^ 64)
    (ht3 : t.term < 2 ^ 64) (ht4 : t.idx < 2 ^ 64) :
    ((parseSnapKeyName tokens).isSome ↔
      3 ≤ ((tokens.drop 1).filterMap parseU64).length) ∧
    ((parseTabletSnapKeyName tokens).isSome ↔
      4 ≤ ((tokens.drop 1).filterMap parseU64).length) ∧
    parseSnapKeyName (snapKeyNameTokens tag k) = some k ∧
    parseTabletSnapKeyName (tabletSnapKeyNameTokens tag t) = some t := by
  refine ⟨?_, ?_, ?_, ?_⟩
  · rw [parseSnapKeyName]
    cases hn : (tokens.drop 1).filterMap parseU64 with
    | nil => simp
    | cons a l1 =>
        cases l1 with
        | nil => simp
        | cons b l2 =>
            cases l2 with
            | nil => simp
            | cons c l3 => simp
  · rw [parseTabletSnapKeyName]
    cases hn : (tokens.drop 1).filterMap parseU64 with
    | nil => simp
    | cons a l1 =>
        cases l1 with
        | nil => simp
        | cons b l2 =>
            cases l2 with
            | nil => simp
            | cons c l3 =>
                cases l3 with
                | nil => simp
                | cons d l4 => simp
  · rw [parseSnapKeyName, snapKeyNameTokens]
    simp only [List.drop_succ_cons, List.drop_zero, List.filterMap_cons,
      parseU64_decDigits hk1, parseU64_decDigits hk2, parseU64_decDigits hk3,
      List.filterMap_nil]
  · rw [parseTabletSnapKeyName, tabletSnapKeyNameTokens]
    simp only [List.drop_succ_cons, List.drop_zero, List.filterMap_cons,
      parseU64_decDigits ht1, parseU64_decDigits ht2, parseU64_decDigits ht3,
      parseU64_decDigits ht4, List.filterMap_nil]

/-- Witness for C8: round trip of a concrete key through its file name. -/
theorem snap_name_parse_spec_witness :
    parseSnapKeyName (snapKeyNameTokens [103, 101, 110] ⟨12, 5, 7⟩) =
      some ⟨12, 5, 7⟩ ∧
    parseTabletSnapKeyName
        (tabletSnapKeyNameTokens [103, 101, 110] ⟨12, 9, 5, 7⟩) =
      some ⟨12, 9, 5, 7⟩ :=
  ⟨(snap_name_parse_spec [] [103, 101, 110] ⟨12, 5, 7⟩ ⟨12, 9, 5, 7⟩
        (by norm_num) (by norm_num) (by norm_num) (by norm_num)
        (by norm_num) (by norm_num) (by norm_num)).2.2.1,
   (snap_name_parse_spec [] [103, 101, 110] ⟨12, 5, 7⟩ ⟨12, 9, 5, 7⟩
        (by norm_num) (by norm_num) (by norm_num) (by norm_num)
        (by norm_num) (by norm_num) (by norm_num)).2.2.2⟩

/-!
## Replay loops and cooperative abort
(`snap_io::apply_plain_cf_file`, `snap_io::apply_sst_cf_files_without_ingest`)

The decoded key/value stream (resp. the SST iterator contents) is the
list of pairs; the shared cancellation flag (`ApplyAbortChecker` reading
`JOB_STATUS_CANCELLING`) is a function of the loop iteration at which it
is polled.  `write_to_db` commits the collected batch to the engine; the
output records the sequence of committed batches.
-/

abbrev KV := List Nat × List Nat

def kvLen (kv : KV) : Nat := kv.1.length + kv.2.length

inductive ApplyErr where
  | abort
deriving DecidableEq, Repr

structure ApplyOut where
  writes : List (List KV)
  res : Option ApplyErr
deriving DecidableEq, Repr

/-- The decode loop of `apply_plain_cf_file`: poll the stale detector,
decode the next pair (an empty key ends the stream and flushes the
pending batch), collect into the batch, and commit whenever the batch
reaches `batch_size` bytes. -/
def applyPlainLoop (stale : Nat → Bool) (batchSize : Nat) :
    List KV → Nat → List KV → Nat → List (List KV) → ApplyOut
  | [], it, batch, _, ws =>
      if stale it then ⟨ws, some .abort⟩
      else if batch.isEmpty then ⟨ws, none⟩
      else ⟨ws ++ [batch], none⟩
  | kv :: rest, it, batch, bsz, ws =>
      if stale it then ⟨ws, some .abort⟩
      else
        let batch2 := batch ++ [kv]
        let bsz2 := bsz + kvLen kv
        if batchSize ≤ bsz2 then
          applyPlainLoop stale batchSize rest (it + 1) [] 0 (ws ++ [batch2])
        else
          applyPlainLoop stale batchSize rest (it + 1) batch2 bsz2 ws

def applyPlainCfFile (stale : Nat → Bool) (batchSize : Nat)
    (entries : List KV) : ApplyOut :=
  applyPlainLoop stale batchSize entries 0 [] 0 []

/-- The iterator loop of `apply_sst_cf_file_without_ingest`: poll the
stale detector, stop at iterator exhaustion (flushing the pending batch),
otherwise collect the current pair and commit full batches. -/
def applySstFileLoop (stale : Nat → Bool) (batchSize : Nat) :
    List KV → Nat → List KV → Nat → List (List KV) → ApplyOut
  | [], it, batch, _, ws =>
      if stale it then ⟨ws, some .abort⟩
      else if batch.isEmpty then ⟨ws, none⟩
      else ⟨ws ++ [batch], none⟩
  | kv :: rest, it, batch, bsz, ws =>
      if stale it then ⟨ws, some .abort⟩
      else
        let batch2 := batch ++ [kv]
        let bsz2 := bsz + kvLen kv
        if batchSize ≤ bsz2 then
          applySstFileLoop stale batchSize rest (it + 1) [] 0 (ws ++ [batch2])
        else
          applySstFileLoop stale batchSize rest (it + 1) batch2 bsz2 ws

def applySstCfFileWithoutIngest (stale : Nat → Bool) (batchSize : Nat)
    (entries : List KV) : ApplyOut :=
  applySstFileLoop stale batchSize entries 0 [] 0 []

/-- `apply_sst_cf_files_without_ingest`: replay every chunk file in
order, stopping at the first error.  The stale detector takes the file
index and the iteration within that file. -/
def applySstCfFilesWithoutIngest (stale : Nat → Nat → Bool) (batchSize : Nat) :
    List (List KV) → Nat → List (List KV) → ApplyOut
  | [], _, ws => ⟨ws, none⟩
  | file :: rest, f, ws =>
      let r := applySstCfFileWithoutIngest (stale f) batchSize file
      match r.res with
      | none => applySstCfFilesWithoutIngest stale batchSize rest (f + 1)
          (ws ++ r.writes)
      | some e => ⟨ws ++ r.writes, some e⟩

theorem applyPlainLoop_stale {stale : Nat → Bool} {batchSize : Nat}
    (rem : List KV) (it : Nat) (batch : List KV) (bsz : Nat)
    (ws : List (List KV)) (h : stale it = true) :
    applyPlainLoop stale batchSize rem it batch bsz ws = ⟨ws, some .abort⟩ := by
  cases rem with
  | nil => rw [applyPlainLoop, if_pos h]
  | cons kv rest => rw [applyPlainLoop, if_pos h]

theorem applyPlainLoop_no_stale {stale : Nat → Bool} {batchSize : Nat}
    (rem : List KV) (it : Nat) (batch : List KV) (bsz : Nat)
    (ws : List (List KV)) (h : ∀ i, stale i = false) :
    (applyPlainLoop stale batchSize rem it batch bsz ws).res = none := by
  induction rem generalizing it batch bsz ws with
  | nil =>
      rw [applyPlainLoop, if_neg (by simp [h])]
      by_cases hb : batch.isEmpty
      · rw [if_pos hb]
      · rw [if_neg hb]
  | cons kv rest ih =>
      rw [applyPlainLoop, if_neg (by simp [h])]
      by_cases hs : batchSize ≤ bsz + kvLen kv
      · simp only [if_pos hs]
        exact ih _ _ _ _
      · simp only [if_neg hs]
        exact ih _ _ _ _

theorem applySstFileLoop_stale {stale : Nat → Bool} {batchSize : Nat}
    (rem : List KV) (it : Nat) (batch : List KV) (bsz : Nat)
    (ws : List (List KV)) (h : stale it = true) :
    applySstFileLoop stale batchSize rem it batch bsz ws = ⟨ws, some .abort⟩ := by
  cases rem with
  | nil => rw [applySstFileLoop, if_pos h]
  | cons kv rest => rw [applySstFileLoop, if_pos h]

theorem applySstFileLoop_no_stale {stale : Nat → Bool} {batchSize : Nat}
    (rem : List KV) (it : Nat) (batch : List KV) (bsz : Nat)
    (ws : List (List KV)) (h : ∀ i, stale i = false) :
    (applySstFileLoop stale batchSize rem it batch bsz ws).res = none := by
  induction rem generalizing it batch bsz ws with
  | nil =>
      rw [applySstFileLoop, if_neg (by simp [h])]
      by_cases hb : batch.isEmpty
      · rw [if_pos hb]
      · rw [if_neg hb]
  | cons kv rest ih =>
      rw [applySstFileLoop, if_neg (by simp [h])]
      by_cases hs : batchSize ≤ bsz + kvLen kv
      · simp only [if_pos hs]
        exact ih _ _ _ _
      · simp only [if_neg hs]
        exact ih _ _ _ _

/-- C9: if the cancellation flag is observed set at the start of a
scan/batch iteration, both replay routines return the Abort error at once
with no further batch committed (the committed-batch list is exactly the
accumulator); if the flag is never observed set, they never return
Abort. -/
theorem apply_abort_spec (stale : Nat → Bool) (stale2 : Nat → Nat → Bool)
    (batchSize : Nat) (entries : List KV) (files : List (List KV)) :
    (∀ rem it batch bsz ws, stale it = true →
        applyPlainLoop stale batchSize rem it batch bsz ws =
          ⟨ws, some .abort⟩) ∧
    ((∀ i, stale i = false) →
        (applyPlainCfFile stale batchSize entries).res = none) ∧
    (∀ rem it batch bsz ws, stale it = true →
        applySstFileLoop stale batchSize rem it batch bsz ws =
          ⟨ws, some .abort⟩) ∧
    ((∀ i, stale i = false) →
        (applySstCfFileWithoutIngest stale batchSize entries).res = none) ∧
    ((∀ f i, stale2 f i = false) → ∀ f0 ws0,
        (applySstCfFilesWithoutIngest stale2 batchSize files f0 ws0).res =
          none) := by
  refine ⟨?_, ?_, ?_, ?_, ?_⟩
  · intro rem it batch bsz ws h
    exact applyPlainLoop_stale rem it batch bsz ws h
  · intro h
    exact applyPlainLoop_no_stale entries 0 [] 0 [] h
  · intro rem it batch bsz ws h
    exact applySstFileLoop_stale rem it batch bsz ws h
  · intro h
    exact applySstFileLoop_no_stale entries 0 [] 0 [] h
  · intro h
    induction files with
    | nil =>
        intro f0 ws0
        rw [applySstCfFilesWithoutIngest]
    | cons file rest ih =>
        intro f0 ws0
        rw [applySstCfFilesWithoutIngest]
        have hr : (applySstCfFileWithoutIngest (stale2 f0) batchSize file).res =
            none :=
          applySstFileLoop_no_stale file 0 [] 0 [] (h f0)
        simp only [hr]
        exact ih f0.succ _

/-- Witness for C9: immediate abort under a set flag, clean run without. -/
theorem apply_abort_spec_witness :
    applyPlainLoop (fun _ => true) 16 [([1], [2])] 0 [] 0 [] =
      ⟨[], some .abort⟩ ∧
    (applySstCfFilesWithoutIngest (fun _ _ => false) 16 [[([1], [2])]] 0
        []).res = none :=
  ⟨(apply_abort_spec (fun _ => true) (fun _ _ => false) 16 [([1], [2])]
        [[([1], [2])]]).1 [([1], [2])] 0 [] 0 [] rfl,
   (apply_abort_spec (fun _ => true) (fun _ _ => false) 16 [([1], [2])]
        [[([1], [2])]]).2.2.2.2 (fun _ _ => rfl) 0 []⟩

/-!
## Receiving side: `set_snapshot_meta`, `new_for_receiving`, `Write::write`

The three fixed column families are `default`, `lock`, `write`
(`SNAPSHOT_CFS`); a `SnapshotMeta` is its ordered list of
`{cf, size, checksum}` entries.  For a receiving `CfFile` the model keeps
the recorded parallel arrays `size` / `checksum` and the
`file_for_recving` states (bytes written so far and the byte stream fed
to the running CRC32, kept abstract as the list of bytes).  Assertion
failures and panicking index accesses of the source are modelled as
`none` / `panicked` results.
-/

inductive CfName where
  | cfDefault
  | cfLock
  | cfWrite
deriving DecidableEq, Repr, Inhabited

structure SnapshotCfFile where
  cf : CfName
  size : Nat
  checksum : Nat
deriving DecidableEq, Repr

structure CfFileForRecving where
  writtenSize : Nat
  fed : List Nat
deriving DecidableEq, Repr, Inhabited

structure CfFileRecv where
  cf : CfName
  sizes : List Nat
  checksums : List Nat
  recv : List CfFileForRecving
deriving DecidableEq, Repr, Inhabited

structure RecvSnapshot where
  cfFiles : List CfFileRecv
  cfIndex : Nat
  cfFileIndex : Nat
  metaOnDisk : Bool
  holdTmpFiles : Bool
  metaFileOpen : Bool
deriving DecidableEq, Repr

/-- The run-length pass of `set_snapshot_meta` computing
`cf_file_count_from_meta` (`current_cf` starts out empty, and the final
count is pushed unconditionally — an empty meta yields `[0]`). -/
def cfRunCountsGo : Option CfName → Nat → List SnapshotCfFile → List Nat
  | _, count, [] => [count]
  | none, _, m :: rest => cfRunCountsGo (some m.cf) 1 rest
  | some c, count, m :: rest =>
      if c = m.cf then cfRunCountsGo (some c) (count + 1) rest
      else count :: cfRunCountsGo (some m.cf) 1 rest

def cfRunCounts (metas : List SnapshotCfFile) : List Nat :=
  cfRunCountsGo none 0 metas

/-- `CfFile::add_file_with_size_checksum`: `assert!(size.len() >= idx)`
(modelled as `none` on failure), then overwrite in place or append. -/
def addFileWithSizeChecksum (cf : CfFileRecv) (idx size checksum : Nat) :
    Option CfFileRecv :=
  if cf.sizes.length < idx then none
  else if idx < cf.sizes.length then
    some { cf with sizes := cf.sizes.set idx size,
                   checksums := cf.checksums.set idx checksum }
  else
    some { cf with sizes := cf.sizes ++ [size],
                   checksums := cf.checksums ++ [checksum] }

inductive MetaResult where
  | accepted (cfs : List CfFileRecv)
  | rejected
  | panicked
deriving DecidableEq, Repr

/-- The recording pass of `set_snapshot_meta`: walk the meta entries with
`cf_idx` / `file_idx`, check the CF name of each entry against the
expected CF, record entries with non-zero size, and advance the indices
at each run boundary.  Entries outside the guard are skipped silently, as
in the source. -/
def setSnapshotMetaGo (counts : List Nat) :
    List SnapshotCfFile → List CfFileRecv → Nat → Nat → MetaResult
  | [], cfs, _, _ => .accepted cfs
  | m :: rest, cfs, cfIdx, fileIdx =>
      if cfIdx < counts.length ∧ fileIdx < counts.getD cfIdx 0 then
        match cfs.get? cfIdx with
        | none => .panicked
        | some cfFile =>
            if m.cf ≠ cfFile.cf then .rejected
            else if m.size ≠ 0 then
              match addFileWithSizeChecksum cfFile fileIdx m.size m.checksum with
              | none => .panicked
              | some cfFile2 =>
                  if counts.getD cfIdx 0 ≤ fileIdx + 1 then
                    setSnapshotMetaGo counts rest (cfs.set cfIdx cfFile2)
                      (cfIdx + 1) 0
                  else
                    setSnapshotMetaGo counts rest (cfs.set cfIdx cfFile2)
                      cfIdx (fileIdx + 1)
            else
              if counts.getD cfIdx 0 ≤ fileIdx + 1 then
                setSnapshotMetaGo counts rest cfs (cfIdx + 1) 0
              else
                setSnapshotMetaGo counts rest cfs cfIdx (fileIdx + 1)
      else
        setSnapshotMetaGo counts rest cfs cfIdx fileIdx

/-- `Snapshot::set_snapshot_meta`: the meta entries must partition into
exactly as many CF runs as the snapshot has CF files. -/
def setSnapshotMeta (cfs : List CfFileRecv) (metas : List SnapshotCfFile) :
    MetaResult :=
  let counts := cfRunCounts metas
  if counts.length ≠ cfs.length then .rejected
  else setSnapshotMetaGo counts metas cfs 0 0

/-- The CF files of a freshly opened snapshot (`Snapshot::new` builds one
empty `CfFile` per CF of `SNAPSHOT_CFS`). -/
def freshCfFiles : List CfFileRecv :=
  [⟨.cfDefault, [], [], []⟩, ⟨.cfLock, [], [], []⟩, ⟨.cfWrite, [], [], []⟩]

/-- The receiving-writer creation loop of `new_for_receiving`: one
`CfFileForRecving` (zero bytes written, empty digest) per recorded chunk
of non-zero size. -/
def initRecv (cf : CfFileRecv) : CfFileRecv :=
  { cf with recv := cf.sizes.filterMap fun sz =>
      if sz = 0 then none else some ⟨0, []⟩ }

/-- `Snapshot::new_for_receiving` on a fresh directory (the snapshot does
not already exist): validate and record the meta, then open one temp file
per non-empty chunk; the temp meta file is opened and `hold_tmp_files`
set. -/
def newForReceiving (metas : List SnapshotCfFile) : Option RecvSnapshot :=
  match setSnapshotMeta freshCfFiles metas with
  | .accepted cfs => some ⟨cfs.map initRecv, 0, 0, false, true, true⟩
  | _ => none

/-- One call to `<Snapshot as Write>::write` past the initial empty-buffer
check: the `while self.cf_index < self.cf_files.len()` loop.  Empty CF
files are skipped; otherwise the current chunk is filled (updating the
running digest and `written_size`), spanning chunk boundaries by
splitting the buffer at `left` bytes; filling a chunk exactly advances
the cursor and ends the call.  `assert!` failures and panicking accesses
are modelled as `none`. -/
def writeLoop (s : RecvSnapshot) (buf : List Nat) (written : Nat) :
    Option (RecvSnapshot × Nat) :=
  if hlt : s.cfIndex < s.cfFiles.length then
    let cf := s.cfFiles.get ⟨s.cfIndex, hlt⟩
    if cf.sizes.isEmpty then
      writeLoop { s with cfIndex := s.cfIndex + 1 } buf written
    else
      match cf.sizes.get? s.cfFileIndex with
      | none => none
      | some sz =>
          if sz = 0 then none
          else
            match cf.recv.get? s.cfFileIndex with
            | none => none
            | some fr =>
                let left := sz - fr.writtenSize
                if hz : left = 0 ∨ buf.isEmpty then none
                else if hgt : left < buf.length then
                  let fr2 : CfFileForRecving :=
                    ⟨fr.writtenSize + left, fr.fed ++ buf.take left⟩
                  let cf2 := { cf with recv := cf.recv.set s.cfFileIndex fr2 }
                  let s2 := { s with cfFiles := s.cfFiles.set s.cfIndex cf2 }
                  let s3 :=
                    if cf.sizes.length ≤ s.cfFileIndex + 1 then
                      { s2 with cfFileIndex := 0, cfIndex := s.cfIndex + 1 }
                    else { s2 with cfFileIndex := s.cfFileIndex + 1 }
                  writeLoop s3 (buf.drop left) (written + left)
                else if buf.length = left then
                  let fr2 : CfFileForRecving :=
                    ⟨fr.writtenSize + left, fr.fed ++ buf.take left⟩
                  let cf2 := { cf with recv := cf.recv.set s.cfFileIndex fr2 }
                  let s2 := { s with cfFiles := s.cfFiles.set s.cfIndex cf2 }
                  let s3 :=
                    if cf.sizes.length ≤ s.cfFileIndex + 1 then
                      { s2 with cfFileIndex := 0, cfIndex := s.cfIndex + 1 }
                    else { s2 with cfFileIndex := s.cfFileIndex + 1 }
                  some (s3, written + left)
                else
                  let fr2 : CfFileForRecving :=
                    ⟨fr.writtenSize + buf.length, fr.fed ++ buf⟩
                  let cf2 := { cf with recv := cf.recv.set s.cfFileIndex fr2 }
                  let s2 := { s with cfFiles := s.cfFiles.set s.cfIndex cf2 }
                  some (s2, written + buf.length)
  else some (s, written)
termination_by (buf.length, s.cfFiles.length - s.cfIndex)
decreasing_by
  · apply Prod.Lex.right
    omega
  · apply Prod.Lex.left
    push_neg at hz
    simp only [List.length_drop]
    omega

/-- `<Snapshot as Write>::write`: an empty buffer returns `Ok(0)` at
once. -/
def snapWrite (s : RecvSnapshot) (buf : List Nat) :
    Option (RecvSnapshot × Nat) :=
  if buf.isEmpty then some (s, 0) else writeLoop s buf 0

/-- The CF file under the streaming cursor. -/
def curCf (s : RecvSnapshot) : CfFileRecv :=
  s.cfFiles.getD s.cfIndex default

/-- Invariant of a receiving snapshot between `write` calls: the parallel
arrays agree in length and record only positive sizes (guaranteed by
`set_snapshot_meta` + `new_for_receiving`); CF files past the cursor are
untouched; and at the cursor either the CF records no chunk (with the
chunk cursor reset) or the chunk cursor is in range, the current chunk
still has room, and later chunks are untouched. -/
def RecvWF (s : RecvSnapshot) : Prop :=
  (∀ cf ∈ s.cfFiles, cf.recv.length = cf.sizes.length ∧ ∀ sz ∈ cf.sizes, 0 < sz) ∧
  (∀ cf ∈ s.cfFiles.drop (s.cfIndex + 1), ∀ fr ∈ cf.recv, fr.writtenSize = 0) ∧
  (s.cfIndex < s.cfFiles.length →
    ((curCf s).sizes = [] → s.cfFileIndex = 0) ∧
    ((curCf s).sizes ≠ [] →
      s.cfFileIndex < (curCf s).sizes.length ∧
      ((curCf s).recv.getD s.cfFileIndex default).writtenSize <
        (curCf s).sizes.getD s.cfFileIndex 0 ∧
      ∀ fr ∈ (curCf s).recv.drop (s.cfFileIndex + 1), fr.writtenSize = 0))

theorem getD_mem_drop {α : Type} (l : List α) (j : Nat) (d : α)
    (h : j < l.length) : l.getD j d ∈ l.drop j := by
  rw [List.getD_eq_getElem _ _ h, List.drop_eq_getElem_cons h]
  exact List.mem_cons_self _ _

theorem mem_drop_succ {α : Type} {a : α} {l : List α} {j : Nat}
    (h : a ∈ l.drop (j + 1)) : a ∈ l.drop j := by
  have h2 : l.drop (j + 1) = (l.drop j).drop 1 := by
    rw [List.drop_drop]
  rw [h2] at h
  exact List.mem_of_mem_drop h

theorem drop_set_of_lt {α : Type} (l : List α) (i j : Nat) (v : α)
    (h : i < j) : (l.set i v).drop j = l.drop j := by
  induction l generalizing i j with
  | nil => simp
  | cons a l ih =>
      cases i with
      | zero =>
          cases j with
          | zero => omega
          | succ j2 => simp [List.set]
      | succ i2 =>
          cases j with
          | zero => omega
          | succ j2 =>
              simp only [List.set, List.drop_succ_cons]
              exact ih i2 j2 (by omega)

theorem addFileWithSizeChecksum_pos {cf cf2 : CfFileRecv} {idx size ck : Nat}
    (h : addFileWithSizeChecksum cf idx size ck = some cf2)
    (hsz : size ≠ 0) (hpos : ∀ sz ∈ cf.sizes, 0 < sz) :
    (∀ sz ∈ cf2.sizes, 0 < sz) ∧ cf2.recv = cf.recv := by
  rw [addFileWithSizeChecksum] at h
  by_cases h1 : cf.sizes.length < idx
  · rw [if_pos h1] at h
    cases h
  · rw [if_neg h1] at h
    by_cases h2 : idx < cf.sizes.length
    · rw [if_pos h2] at h
      cases h
      refine ⟨?_, rfl⟩
      intro sz hsz2
      rcases List.mem_or_eq_of_mem_set hsz2 with h3 | h3
      · exact hpos sz h3
      · subst h3
        omega
    · rw [if_neg h2] at h
      cases h
      refine ⟨?_, rfl⟩
      intro sz hsz2
      rcases List.mem_append.mp hsz2 with h3 | h3
      · exact hpos sz h3
      · rw [List.mem_singleton.mp h3]
        omega

theorem setSnapshotMetaGo_inv {counts : List Nat}
    (metas : List SnapshotCfFile) (cfs : List CfFileRecv) (cfIdx fileIdx : Nat)
    {out : List CfFileRecv}
    (h : setSnapshotMetaGo counts metas cfs cfIdx fileIdx = .accepted out)
    (hinv : ∀ cf ∈ cfs, (∀ sz ∈ cf.sizes, 0 < sz) ∧ cf.recv = []) :
    ∀ cf ∈ out, (∀ sz ∈ cf.sizes, 0 < sz) ∧ cf.recv = [] := by
  induction metas generalizing cfs cfIdx fileIdx with
  | nil =>
      rw [setSnapshotMetaGo] at h
      cases h
      exact hinv
  | cons m rest ih =>
      rw [setSnapshotMetaGo] at h
      by_cases hg : cfIdx < counts.length ∧ fileIdx < counts.getD cfIdx 0
      · rw [if_pos hg] at h
        cases hcf : cfs.get? cfIdx with
        | none =>
            rw [hcf] at h
            cases h
        | some cfFile =>
            rw [hcf] at h
            dsimp only at h
            by_cases hne : m.cf ≠ cfFile.cf
            · rw [if_pos hne] at h
              cases h
            · rw [if_neg hne] at h
              have hmem : cfFile ∈ cfs := List.get?_mem hcf
              by_cases hs : m.size ≠ 0
              · rw [if_pos hs] at h
                cases hadd : addFileWithSizeChecksum cfFile fileIdx m.size
                    m.checksum with
                | none =>
                    rw [hadd] at h
                    cases h
                | some cfFile2 =>
                    rw [hadd] at h
                    dsimp only at h
                    have hcf2 := addFileWithSizeChecksum_pos hadd hs
                      (hinv cfFile hmem).1
                    have hinv2 : ∀ cf ∈ cfs.set cfIdx cfFile2,
                        (∀ sz ∈ cf.sizes, 0 < sz) ∧ cf.recv = [] := by
                      intro cf hmem2
                      rcases List.mem_or_eq_of_mem_set hmem2 with h3 | h3
                      · exact hinv cf h3
                      · subst h3
                        refine ⟨hcf2.1, ?_⟩
                        rw [hcf2.2]
                        exact (hinv cfFile hmem).2
                    by_cases hlast : counts.getD cfIdx 0 ≤ fileIdx + 1
                    · rw [if_pos hlast] at h
                      exact ih _ _ _ h hinv2
                    · rw [if_neg hlast] at h
                      exact ih _ _ _ h hinv2
              · rw [if_neg hs] at h
                by_cases hlast : counts.getD cfIdx 0 ≤ fileIdx + 1
                · rw [if_pos hlast] at h
                  exact ih _ _ _ h hinv
                · rw [if_neg hlast] at h
                  exact ih _ _ _ h hinv
      · rw [if_neg hg] at h
        exact ih _ _ _ h hinv

theorem getD_set_self {α : Type} (l : List α) (i : Nat) (v d : α)
    (h : i < l.length) : (l.set i v).getD i d = v := by
  induction l generalizing i with
  | nil => simp at h
  | cons a l ih =>
      cases i with
      | zero => simp [List.set]
      | succ i2 =>
          simp only [List.set, List.getD_cons_succ]
          exact ih i2 (by simpa using h)

theorem getD_set_ne {α : Type} (l : List α) (i j : Nat) (v d : α)
    (h : i ≠ j) : (l.set i v).getD j d = l.getD j d := by
  induction l generalizing i j with
  | nil => simp
  | cons a l ih =>
      cases i with
      | zero =>
          cases j with
          | zero => omega
          | succ j2 => simp [List.set]
      | succ i2 =>
          cases j with
          | zero => simp [List.set]
          | succ j2 =>
              simp only [List.set, List.getD_cons_succ]
              exact ih i2 j2 (by omega)

theorem initRecv_filterMap {sizes : List Nat} (hpos : ∀ sz ∈ sizes, 0 < sz) :
    (sizes.filterMap fun sz =>
      if sz = 0 then none else some (⟨0, []⟩ : CfFileForRecving)) =
    sizes.map (fun _ => ⟨0, []⟩) := by
  induction sizes with
  | nil => simp
  | cons a l ih =>
      have ha : ¬a = 0 := by
        have := hpos a (List.mem_cons_self a l)
        omega
      simp only [List.filterMap_cons, if_neg ha, List.map_cons]
      rw [ih (fun sz hsz => hpos sz (List.mem_cons_of_mem a hsz))]

theorem initRecv_spec (cf : CfFileRecv) (hpos : ∀ sz ∈ cf.sizes, 0 < sz) :
    (initRecv cf).recv.length = cf.sizes.length ∧
      (∀ fr ∈ (initRecv cf).recv, fr = ⟨0, []⟩) ∧
      (initRecv cf).sizes = cf.sizes := by
  rw [initRecv]
  refine ⟨?_, ?_, rfl⟩
  · simp [initRecv_filterMap hpos]
  · intro fr hfr
    simp only [initRecv_filterMap hpos] at hfr
    rcases List.mem_map.mp hfr with ⟨_, _, hh⟩
    exact hh.symm

/-- Facts about a freshly constructed receiving snapshot: accepted metas
yield only positive recorded sizes, one receiving writer per chunk, all
counters zero. -/
theorem newForReceiving_wf {metas : List SnapshotCfFile} {s : RecvSnapshot}
    (h : newForReceiving metas = some s) :
    RecvWF s ∧ s.cfIndex = 0 ∧ s.cfFileIndex = 0 ∧ s.metaOnDisk = false ∧
      s.holdTmpFiles = true ∧
      ∀ cf ∈ s.cfFiles, cf.recv.length = cf.sizes.length ∧
        (∀ sz ∈ cf.sizes, 0 < sz) ∧ ∀ fr ∈ cf.recv, fr.writtenSize = 0 := by
  rw [newForReceiving] at h
  cases hm : setSnapshotMeta freshCfFiles metas with
  | rejected =>
      rw [hm] at h
      cases h
  | panicked =>
      rw [hm] at h
      cases h
  | accepted cfs =>
      rw [hm] at h
      cases h
      have hfresh : ∀ cf ∈ freshCfFiles,
          (∀ sz ∈ cf.sizes, 0 < sz) ∧ cf.recv = [] := by
        intro cf hcf
        rw [freshCfFiles] at hcf
        rcases List.mem_cons.mp hcf with h1 | h1
        · subst h1
          exact ⟨by simp, rfl⟩
        rcases List.mem_cons.mp h1 with h2 | h2
        · subst h2
          exact ⟨by simp, rfl⟩
        rcases List.mem_cons.mp h2 with h3 | h3
        · subst h3
          exact ⟨by simp, rfl⟩
        · simp at h3
      have hout : ∀ cf ∈ cfs, (∀ sz ∈ cf.sizes, 0 < sz) ∧ cf.recv = [] := by
        rw [setSnapshotMeta] at hm
        by_cases hc : (cfRunCounts metas).length ≠ freshCfFiles.length
        · rw [if_pos hc] at hm
          cases hm
        · rw [if_neg hc] at hm
          exact setSnapshotMetaGo_inv metas freshCfFiles 0 0 hm hfresh
      have hmap : ∀ cf ∈ cfs.map initRecv,
          cf.recv.length = cf.sizes.length ∧ (∀ sz ∈ cf.sizes, 0 < sz) ∧
            ∀ fr ∈ cf.recv, fr.writtenSize = 0 := by
        intro cf hcf
        rcases List.mem_map.mp hcf with ⟨c0, hc0, hini⟩
        have hpos := (hout c0 hc0).1
        have hspec := initRecv_spec c0 hpos
        subst hini
        refine ⟨by rw [hspec.1, hspec.2.2], by rw [hspec.2.2]; exact hpos, ?_⟩
        intro fr hfr
        rw [hspec.2.1 fr hfr]
      refine ⟨⟨?_, ?_, ?_⟩, rfl, rfl, rfl, rfl, hmap⟩
      · intro cf hcf
        exact ⟨(hmap cf hcf).1, (hmap cf hcf).2.1⟩
      · intro cf hcf fr hfr
        exact (hmap cf (List.mem_of_mem_drop hcf)).2.2 fr hfr
      · intro hlt
        have hcur : curCf ⟨cfs.map initRecv, 0, 0, false, true, true⟩ ∈
            cfs.map initRecv := by
          have := getD_mem_drop (cfs.map initRecv) 0 default hlt
          simpa [curCf] using this
        have hfacts := hmap _ hcur
        refine ⟨fun _ => rfl, ?_⟩
        intro hne
        refine ⟨?_, ?_, ?_⟩
        · exact List.length_pos.mpr hne
        · have hlp : 0 < (curCf ⟨cfs.map initRecv, 0, 0, false, true,
              true⟩).sizes.length := List.length_pos.mpr hne
          have hszpos : 0 < (curCf ⟨cfs.map initRecv, 0, 0, false, true,
              true⟩).sizes.getD 0 0 := by
            apply hfacts.2.1
            have := getD_mem_drop (curCf ⟨cfs.map initRecv, 0, 0, false,
              true, true⟩).sizes 0 0 hlp
            simpa using this
          have hwr : ((curCf ⟨cfs.map initRecv, 0, 0, false, true,
              true⟩).recv.getD 0 default).writtenSize = 0 := by
            by_cases hr : 0 < (curCf ⟨cfs.map initRecv, 0, 0, false, true,
                true⟩).recv.length
            · apply hfacts.2.2
              have := getD_mem_drop (curCf ⟨cfs.map initRecv, 0, 0, false,
                true, true⟩).recv 0 default hr
              simpa using this
            · have : (curCf ⟨cfs.map initRecv, 0, 0, false, true,
                  true⟩).recv = [] := by
                cases hc : (curCf ⟨cfs.map initRecv, 0, 0, false, true,
                    true⟩).recv with
                | nil => rfl
                | cons a l => rw [hc] at hr; simp at hr
              rw [this]
              rfl
          dsimp only
          omega
        · intro fr hfr
          exact hfacts.2.2 fr (List.mem_of_mem_drop hfr)

/-- A CF file whose chunks are untouched is a valid cursor target. -/
theorem cursor_entry_wf (cf : CfFileRecv)
    (hpos : ∀ sz ∈ cf.sizes, 0 < sz)
    (hzero : ∀ fr ∈ cf.recv, fr.writtenSize = 0)
    (hne : cf.sizes ≠ []) :
    0 < cf.sizes.length ∧
      (cf.recv.getD 0 default).writtenSize < cf.sizes.getD 0 0 ∧
      ∀ fr ∈ cf.recv.drop 1, fr.writtenSize = 0 := by
  refine ⟨List.length_pos.mpr hne, ?_, ?_⟩
  · have hlp := List.length_pos.mpr hne
    have hszpos : 0 < cf.sizes.getD 0 0 := by
      apply hpos
      have := getD_mem_drop cf.sizes 0 0 hlp
      simpa using this
    have hwr : (cf.recv.getD 0 default).writtenSize = 0 := by
      by_cases hr : 0 < cf.recv.length
      · apply hzero
        have := getD_mem_drop cf.recv 0 default hr
        simpa using this
      · have hnil : cf.recv = [] := by
          cases hc : cf.recv with
          | nil => rfl
          | cons x l =>
              rw [hc] at hr
              simp at hr
        rw [hnil]
        rfl
    omega
  · intro fr hfr
    exact hzero fr (List.mem_of_mem_drop hfr)

/-- Skipping an empty CF file preserves the invariant. -/
theorem wf_skip_empty (cfFiles : List CfFileRecv) (ci fi : Nat) (a b c : Bool)
    (hwf : RecvWF ⟨cfFiles, ci, fi, a, b, c⟩)
    (hlt : ci < cfFiles.length)
    (hemp : (cfFiles.getD ci default).sizes = []) :
    RecvWF ⟨cfFiles, ci + 1, fi, a, b, c⟩ := by
  obtain ⟨h1, h2, h3⟩ := hwf
  have hfi0 : fi = 0 := (h3 hlt).1 hemp
  subst hfi0
  refine ⟨h1, ?_, ?_⟩
  · intro cf hcf fr hfr
    exact h2 cf (mem_drop_succ hcf) fr hfr
  · intro hlt2
    have hdrop : curCf ⟨cfFiles, ci + 1, 0, a, b, c⟩ ∈ cfFiles.drop (ci + 1) := by
      have := getD_mem_drop cfFiles (ci + 1) default hlt2
      simpa [curCf] using this
    have hmem : curCf ⟨cfFiles, ci + 1, 0, a, b, c⟩ ∈ cfFiles :=
      List.mem_of_mem_drop hdrop
    refine ⟨fun _ => rfl, ?_⟩
    intro hne
    exact cursor_entry_wf _ (h1 _ hmem).2 (h2 _ hdrop) hne


/-- Writing into the current chunk without filling it preserves the
invariant (`CmpOrdering::Less`: partial fill, cursor unchanged). -/
theorem wf_partial_fill (cfFiles : List CfFileRecv) (ci fi : Nat)
    (a b c : Bool) (fr2 : CfFileForRecving)
    (hwf : RecvWF ⟨cfFiles, ci, fi, a, b, c⟩)
    (hlt : ci < cfFiles.length)
    (hne : (cfFiles.getD ci default).sizes ≠ [])
    (hw2 : fr2.writtenSize < (cfFiles.getD ci default).sizes.getD fi 0) :
    RecvWF ⟨cfFiles.set ci
      { cfFiles.getD ci default with
        recv := (cfFiles.getD ci default).recv.set fi fr2 }, ci, fi,
      a, b, c⟩ := by
  obtain ⟨h1, h2, h3⟩ := hwf
  dsimp only [curCf] at h1 h2 h3
  obtain ⟨hfi, hcw, hdz⟩ := (h3 hlt).2 hne
  have hmemcf : cfFiles.getD ci default ∈ cfFiles :=
    List.mem_of_mem_drop (getD_mem_drop cfFiles ci default hlt)
  have hlenr := (h1 _ hmemcf).1
  have hset : (cfFiles.set ci
      { cfFiles.getD ci default with
        recv := (cfFiles.getD ci default).recv.set fi fr2 }).getD ci default =
      { cfFiles.getD ci default with
        recv := (cfFiles.getD ci default).recv.set fi fr2 } :=
    getD_set_self cfFiles ci _ default hlt
  dsimp only at hset
  unfold RecvWF curCf
  dsimp only
  refine ⟨?_, ?_, ?_⟩
  · intro cfx hcfx
    rcases List.mem_or_eq_of_mem_set hcfx with hx | hx
    · exact h1 cfx hx
    · subst hx
      dsimp only
      rw [List.length_set]
      exact ⟨hlenr, (h1 _ hmemcf).2⟩
  · intro cfx hcfx fr hfr
    rw [drop_set_of_lt _ _ _ _ (by omega : ci < ci + 1)] at hcfx
    exact h2 cfx hcfx fr hfr
  · intro hlt2
    rw [hset]
    dsimp only
    constructor
    · intro hz
      exact absurd hz hne
    · intro _
      refine ⟨hfi, ?_, ?_⟩
      · rw [getD_set_self _ _ _ _ (by rw [hlenr]; exact hfi)]
        exact hw2
      · intro fr hfr
        rw [drop_set_of_lt _ _ _ _ (by omega : fi < fi + 1)] at hfr
        exact hdz fr hfr

/-- Filling the current chunk and moving to the next chunk of the same CF
preserves the invariant. -/
theorem wf_advance_within (cfFiles : List CfFileRecv) (ci fi : Nat)
    (a b c : Bool) (fr2 : CfFileForRecving)
    (hwf : RecvWF ⟨cfFiles, ci, fi, a, b, c⟩)
    (hlt : ci < cfFiles.length)
    (hne : (cfFiles.getD ci default).sizes ≠ [])
    (hin : fi + 1 < (cfFiles.getD ci default).sizes.length) :
    RecvWF ⟨cfFiles.set ci
      { cfFiles.getD ci default with
        recv := (cfFiles.getD ci default).recv.set fi fr2 }, ci, fi + 1,
      a, b, c⟩ := by
  obtain ⟨h1, h2, h3⟩ := hwf
  dsimp only [curCf] at h1 h2 h3
  obtain ⟨hfi, hcw, hdz⟩ := (h3 hlt).2 hne
  have hmemcf : cfFiles.getD ci default ∈ cfFiles :=
    List.mem_of_mem_drop (getD_mem_drop cfFiles ci default hlt)
  have hlenr := (h1 _ hmemcf).1
  have hset : (cfFiles.set ci
      { cfFiles.getD ci default with
        recv := (cfFiles.getD ci default).recv.set fi fr2 }).getD ci default =
      { cfFiles.getD ci default with
        recv := (cfFiles.getD ci default).recv.set fi fr2 } :=
    getD_set_self cfFiles ci _ default hlt
  dsimp only at hset
  unfold RecvWF curCf
  dsimp only
  refine ⟨?_, ?_, ?_⟩
  · intro cfx hcfx
    rcases List.mem_or_eq_of_mem_set hcfx with hx | hx
    · exact h1 cfx hx
    · subst hx
      dsimp only
      rw [List.length_set]
      exact ⟨hlenr, (h1 _ hmemcf).2⟩
  · intro cfx hcfx fr hfr
    rw [drop_set_of_lt _ _ _ _ (by omega : ci < ci + 1)] at hcfx
    exact h2 cfx hcfx fr hfr
  · intro hlt2
    rw [hset]
    dsimp only
    constructor
    · intro hz
      exact absurd hz hne
    · intro _
      refine ⟨hin, ?_, ?_⟩
      · rw [getD_set_ne _ _ _ _ _ (by omega : fi ≠ fi + 1)]
        have hfir1 : fi + 1 < (cfFiles.getD ci default).recv.length := by
          rw [hlenr]
          exact hin
        have hz := hdz _ (getD_mem_drop (cfFiles.getD ci default).recv
          (fi + 1) default hfir1)
        have hmem1 := getD_mem_drop (cfFiles.getD ci default).sizes (fi + 1)
          0 hin
        have hpos := (h1 _ hmemcf).2 _ (List.mem_of_mem_drop hmem1)
        omega
      · intro fr hfr
        rw [drop_set_of_lt _ _ _ _ (by omega : fi < fi + 1 + 1)] at hfr
        exact hdz fr (mem_drop_succ hfr)

/-- Filling the last chunk of the current CF and moving to the next CF
preserves the invariant. -/
theorem wf_advance_next (cfFiles : List CfFileRecv) (ci fi : Nat)
    (a b c : Bool) (fr2 : CfFileForRecving)
    (hwf : RecvWF ⟨cfFiles, ci, fi, a, b, c⟩)
    (hlt : ci < cfFiles.length)
    (hne : (cfFiles.getD ci default).sizes ≠ []) :
    RecvWF ⟨cfFiles.set ci
      { cfFiles.getD ci default with
        recv := (cfFiles.getD ci default).recv.set fi fr2 }, ci + 1, 0,
      a, b, c⟩ := by
  obtain ⟨h1, h2, h3⟩ := hwf
  dsimp only [curCf] at h1 h2 h3
  have hmemcf : cfFiles.getD ci default ∈ cfFiles :=
    List.mem_of_mem_drop (getD_mem_drop cfFiles ci default hlt)
  have hlenr := (h1 _ hmemcf).1
  unfold RecvWF curCf
  dsimp only
  refine ⟨?_, ?_, ?_⟩
  · intro cfx hcfx
    rcases List.mem_or_eq_of_mem_set hcfx with hx | hx
    · exact h1 cfx hx
    · subst hx
      dsimp only
      rw [List.length_set]
      exact ⟨hlenr, (h1 _ hmemcf).2⟩
  · intro cfx hcfx fr hfr
    rw [drop_set_of_lt _ _ _ _ (by omega : ci < ci + 1 + 1)] at hcfx
    exact h2 cfx (mem_drop_succ hcfx) fr hfr
  · intro hlt2
    rw [List.length_set] at hlt2
    have hcur2 : (cfFiles.set ci
        { cfFiles.getD ci default with
          recv := (cfFiles.getD ci default).recv.set fi fr2 }).getD (ci + 1)
          default = cfFiles.getD (ci + 1) default :=
      getD_set_ne _ _ _ _ _ (by omega : ci ≠ ci + 1)
    dsimp only at hcur2
    rw [hcur2]
    have hdrop : cfFiles.getD (ci + 1) default ∈ cfFiles.drop (ci + 1) :=
      getD_mem_drop cfFiles (ci + 1) default hlt2
    have hmem := List.mem_of_mem_drop hdrop
    refine ⟨fun _ => rfl, ?_⟩
    intro hne2
    exact cursor_entry_wf _ (h1 _ hmem).2 (h2 _ hdrop) hne2

/-- The result of a `write` call is defined and leaves a well-formed
state. -/
def SafeOut : Option (RecvSnapshot × Nat) → Prop
  | none => False
  | some out => RecvWF out.1

/-- Under the receiving invariant, the write loop never hits a failing
assertion or panicking access, and it preserves the invariant. -/
theorem writeLoop_safe (k : Nat) :
    ∀ (s : RecvSnapshot) (buf : List Nat) (written : Nat),
      buf.length * (s.cfFiles.length + 1) +
        (s.cfFiles.length - s.cfIndex) ≤ k →
      RecvWF s → buf ≠ [] →
      SafeOut (writeLoop s buf written) := by
  induction k with
  | zero =>
      intro s buf written hk hwf hbuf
      exfalso
      have hb1 : 1 ≤ buf.length := List.length_pos.mpr hbuf
      have h2 : s.cfFiles.length + 1 ≤ buf.length * (s.cfFiles.length + 1) :=
        Nat.le_mul_of_pos_left _ hb1
      omega
  | succ k ih =>
      intro s buf written hk hwf hbuf
      obtain ⟨cfFiles, ci, fi, a, b, c⟩ := s
      dsimp only at hk
      rw [writeLoop]
      by_cases hlt : ci < cfFiles.length
      · rw [dif_pos hlt]
        have hgd : cfFiles.get ⟨ci, hlt⟩ = cfFiles.getD ci default := by
          rw [List.get_eq_getElem, List.getD_eq_getElem cfFiles default hlt]
        dsimp only
        rw [hgd]
        by_cases hemp : (cfFiles.getD ci default).sizes.isEmpty
        · rw [if_pos hemp]
          apply ih _ buf written ?hm
            (wf_skip_empty cfFiles ci fi a b c hwf hlt
              (List.isEmpty_iff.mp hemp)) hbuf
          case hm =>
            dsimp only
            omega
        · rw [if_neg hemp]
          have hneq : (cfFiles.getD ci default).sizes ≠ [] := by
            simpa [List.isEmpty_iff] using hemp
          have hmemcf : cfFiles.getD ci default ∈ cfFiles :=
            List.mem_of_mem_drop (getD_mem_drop cfFiles ci default hlt)
          obtain ⟨hfi, hcw, hdz⟩ := (hwf.2.2 hlt).2 hneq
          have hfi2 : fi < (cfFiles.getD ci default).sizes.length := hfi
          have hcw2 : ((cfFiles.getD ci default).recv.getD fi
              default).writtenSize < (cfFiles.getD ci default).sizes.getD fi
              0 := hcw
          have hlenr : (cfFiles.getD ci default).recv.length =
              (cfFiles.getD ci default).sizes.length := (hwf.1 _ hmemcf).1
          have hsq : (cfFiles.getD ci default).sizes.get? fi =
              some ((cfFiles.getD ci default).sizes.getD fi 0) := by
            rw [List.get?_eq_getElem?, List.getElem?_eq_getElem hfi2,
              List.getD_eq_getElem _ _ hfi2]
          rw [hsq]
          dsimp only
          have hpos : 0 < (cfFiles.getD ci default).sizes.getD fi 0 := by
            apply (hwf.1 _ hmemcf).2
            exact List.mem_of_mem_drop
              (getD_mem_drop (cfFiles.getD ci default).sizes fi 0 hfi2)
          rw [if_neg (by omega :
            ¬(cfFiles.getD ci default).sizes.getD fi 0 = 0)]
          have hfir : fi < (cfFiles.getD ci default).recv.length := by
            rw [hlenr]
            exact hfi2
          have hrq : (cfFiles.getD ci default).recv.get? fi =
              some ((cfFiles.getD ci default).recv.getD fi default) := by
            rw [List.get?_eq_getElem?, List.getElem?_eq_getElem hfir,
              List.getD_eq_getElem _ _ hfir]
          rw [hrq]
          dsimp only
          have hbne : ¬buf.isEmpty = true := by
            simpa [List.isEmpty_iff] using hbuf
          rw [dif_neg (by
            push_neg
            exact ⟨by omega, hbne⟩ :
            ¬((cfFiles.getD ci default).sizes.getD fi 0 -
                ((cfFiles.getD ci default).recv.getD fi
                  default).writtenSize = 0 ∨ buf.isEmpty = true))]
          by_cases hgt : (cfFiles.getD ci default).sizes.getD fi 0 -
              ((cfFiles.getD ci default).recv.getD fi default).writtenSize <
              buf.length
          · rw [dif_pos hgt]
            have hmeas : (buf.length -
                ((cfFiles.getD ci default).sizes.getD fi 0 -
                  ((cfFiles.getD ci default).recv.getD fi
                    default).writtenSize)) * (cfFiles.length + 1) +
                cfFiles.length ≤ buf.length * (cfFiles.length + 1) := by
              have hsum : (buf.length -
                  ((cfFiles.getD ci default).sizes.getD fi 0 -
                    ((cfFiles.getD ci default).recv.getD fi
                      default).writtenSize)) + 1 ≤ buf.length := by
                omega
              have hkey := Nat.mul_le_mul_right (cfFiles.length + 1) hsum
              rw [Nat.succ_mul] at hkey
              omega
            have hdne : buf.drop ((cfFiles.getD ci default).sizes.getD fi 0 -
                ((cfFiles.getD ci default).recv.getD fi
                  default).writtenSize) ≠ [] := by
              intro hc
              have := congrArg List.length hc
              rw [List.length_drop, List.length_nil] at this
              omega
            by_cases hlast : (cfFiles.getD ci default).sizes.length ≤ fi + 1
            · rw [if_pos hlast]
              apply ih _ _ _ ?hm2 (wf_advance_next cfFiles ci fi a b c _ hwf
                hlt hneq) hdne
              case hm2 =>
                simp only [List.length_set, List.length_drop]
                omega
            · rw [if_neg hlast]
              apply ih _ _ _ ?hm3 (wf_advance_within cfFiles ci fi a b c _
                hwf hlt hneq (by omega)) hdne
              case hm3 =>
                simp only [List.length_set, List.length_drop]
                omega
          · rw [dif_neg hgt]
            by_cases heq : buf.length = (cfFiles.getD ci default).sizes.getD
                fi 0 - ((cfFiles.getD ci default).recv.getD fi
                  default).writtenSize
            · rw [if_pos heq]
              by_cases hlast : (cfFiles.getD ci default).sizes.length ≤ fi + 1
              · rw [if_pos hlast]
                exact wf_advance_next cfFiles ci fi a b c _ hwf hlt hneq
              · rw [if_neg hlast]
                exact wf_advance_within cfFiles ci fi a b c _ hwf hlt hneq
                  (by omega)
            · rw [if_neg heq]
              apply wf_partial_fill cfFiles ci fi a b c _ hwf hlt hneq
              dsimp only
              omega
      · rw [dif_neg hlt]
        exact hwf

/-- Once nothing remains to be written (every CF file from the cursor on
records no chunk), a `write` call only skips over the remaining empty CF
files and returns 0 without touching any file state. -/
theorem writeLoop_all_empty (k : Nat) :
    ∀ (s : RecvSnapshot) (buf : List Nat) (written : Nat),
      s.cfFiles.length - s.cfIndex ≤ k →
      (∀ cf ∈ s.cfFiles.drop s.cfIndex, cf.sizes = []) →
      ∃ s2, writeLoop s buf written = some (s2, written) ∧
        s2.cfFiles = s.cfFiles := by
  induction k with
  | zero =>
      intro s buf written hk hall
      obtain ⟨cfFiles, ci, fi, a, b, c⟩ := s
      dsimp only at hk hall ⊢
      rw [writeLoop]
      rw [dif_neg (by omega : ¬ci < cfFiles.length)]
      exact ⟨_, rfl, rfl⟩
  | succ k ih =>
      intro s buf written hk hall
      obtain ⟨cfFiles, ci, fi, a, b, c⟩ := s
      dsimp only at hk hall ⊢
      rw [writeLoop]
      by_cases hlt : ci < cfFiles.length
      · rw [dif_pos hlt]
        have hgd : cfFiles.get ⟨ci, hlt⟩ = cfFiles.getD ci default := by
          rw [List.get_eq_getElem, List.getD_eq_getElem cfFiles default hlt]
        dsimp only
        rw [hgd]
        have hemp : (cfFiles.getD ci default).sizes = [] :=
          hall _ (getD_mem_drop cfFiles ci default hlt)
        rw [if_pos (by rw [hemp]; rfl)]
        have hrec := ih ⟨cfFiles, ci + 1, fi, a, b, c⟩ buf written
          (by dsimp only; omega)
          (by
            intro cf hcf
            exact hall cf (mem_drop_succ hcf))
        exact hrec
      · rw [dif_neg hlt]
        exact ⟨_, rfl, rfl⟩

/-- C10: a snapshot constructed for receiving from a meta accepted by
`set_snapshot_meta` records only non-zero chunk sizes with one receiving
writer per recorded chunk and satisfies the streaming invariant; under
that invariant `Write::write` never hits one of its assertions (it always
returns `Ok`) and preserves the invariant; and once all declared bytes
have been accepted (no chunk remains ahead of the cursor) any further
`write` returns `Ok(0)` without touching the received file state. -/
theorem receiving_write_spec (metas : List SnapshotCfFile)
    (s s0 : RecvSnapshot) (buf : List Nat) :
    (∀ s1, newForReceiving metas = some s1 →
        RecvWF s1 ∧ ∀ cf ∈ s1.cfFiles,
          cf.recv.length = cf.sizes.length ∧ ∀ sz ∈ cf.sizes, 0 < sz) ∧
    (RecvWF s → ∃ out, snapWrite s buf = some out ∧ RecvWF out.1) ∧
    ((∀ cf ∈ s0.cfFiles.drop s0.cfIndex, cf.sizes = []) →
        ∃ s2, snapWrite s0 buf = some (s2, 0) ∧ s2.cfFiles = s0.cfFiles) := by
  refine ⟨?_, ?_, ?_⟩
  · intro s1 h
    have hh := newForReceiving_wf h
    refine ⟨hh.1, ?_⟩
    intro cf hcf
    exact ⟨(hh.2.2.2.2.2 cf hcf).1, (hh.2.2.2.2.2 cf hcf).2.1⟩
  · intro hwf
    rw [snapWrite]
    by_cases hb : buf.isEmpty
    · rw [if_pos hb]
      exact ⟨(s, 0), rfl, hwf⟩
    · rw [if_neg hb]
      have hbuf : buf ≠ [] := by simpa [List.isEmpty_iff] using hb
      have hout := writeLoop_safe
        (buf.length * (s.cfFiles.length + 1) +
          (s.cfFiles.length - s.cfIndex)) s buf 0 le_rfl hwf hbuf
      cases hres : writeLoop s buf 0 with
      | none =>
          rw [hres] at hout
          exact hout.elim
      | some out =>
          rw [hres] at hout
          exact ⟨out, rfl, hout⟩
  · intro hempty
    rw [snapWrite]
    by_cases hb : buf.isEmpty
    · rw [if_pos hb]
      exact ⟨s0, rfl, rfl⟩
    · rw [if_neg hb]
      exact writeLoop_all_empty (s0.cfFiles.length - s0.cfIndex) s0 buf 0
        le_rfl hempty

/-- Witness for C10: a concrete accepted meta and a concrete write. -/
theorem receiving_write_spec_witness :
    (∃ out, snapWrite ⟨[⟨.cfDefault, [2], [5], [⟨0, []⟩]⟩], 0, 0, false,
        true, true⟩ [9] = some out ∧ RecvWF out.1) ∧
    RecvWF ⟨[⟨.cfDefault, [2], [5], [⟨0, []⟩]⟩], 0, 0, false, true, true⟩ := by
  have hwf : RecvWF ⟨[⟨.cfDefault, [2], [5], [⟨0, []⟩]⟩], 0, 0, false,
      true, true⟩ := by
    unfold RecvWF curCf
    exact ⟨by decide, by decide, fun _ => ⟨by decide, by decide⟩⟩
  exact ⟨(receiving_write_spec []
      ⟨[⟨.cfDefault, [2], [5], [⟨0, []⟩]⟩], 0, 0, false, true, true⟩
      ⟨[⟨.cfDefault, [2], [5], [⟨0, []⟩]⟩], 0, 0, false, true, true⟩
      [9]).2.1 hwf, hwf⟩

/-!
## Receiver-side commit (`Snapshot::save`)

`save` drains each CF file's `file_for_recving` states in order and
checks, for chunk `i`, `written_size == size[i]` and then
`finalize(write_digest) == checksum[i]`, returning an
`ErrorKind::InvalidData` error on the first mismatch; only after every CF
passes are the data files renamed, the directory synced, the meta file
written and renamed, and `hold_tmp_files` cleared.  CRC32 finalization is
kept abstract as a function of the fed bytes; the drain is modelled as
read-only iteration (no later claim observes `file_for_recving` after
`save`), and the `meta_file.file.take().unwrap()` panic on a missing meta
handle is the `panicked` outcome. -/

inductive SaveErr where
  | sizeMismatch
  | checksumMismatch
  | panicked
deriving DecidableEq, Repr

def saveCfGo (crc : List Nat → Nat) (sizes checksums : List Nat) :
    Nat → List CfFileForRecving → Option SaveErr
  | _, [] => none
  | i, fr :: rest =>
      match sizes.get? i with
      | none => some .panicked
      | some sz =>
          if fr.writtenSize ≠ sz then some .sizeMismatch
          else
            match checksums.get? i with
            | none => some .panicked
            | some ck =>
                if crc fr.fed ≠ ck then some .checksumMismatch
                else saveCfGo crc sizes checksums (i + 1) rest

/-- Per-CF check of `save` (CF files recording no chunk are skipped). -/
def saveCf (crc : List Nat → Nat) (cf : CfFileRecv) : Option SaveErr :=
  if cf.sizes.isEmpty then none
  else saveCfGo crc cf.sizes cf.checksums 0 cf.recv

def findSaveErr (crc : List Nat → Nat) : List CfFileRecv → Option SaveErr
  | [] => none
  | cf :: rest =>
      match saveCf crc cf with
      | some e => some e
      | none => findSaveErr crc rest

/-- `Snapshot::save`, returning the state after the call and the error,
if any. -/
def save (crc : List Nat → Nat) (s : RecvSnapshot) :
    RecvSnapshot × Option SaveErr :=
  match findSaveErr crc s.cfFiles with
  | some e => (s, some e)
  | none =>
      if s.metaFileOpen then
        ({ s with
            metaOnDisk := true
            holdTmpFiles := false
            metaFileOpen := false }, none)
      else (s, some .panicked)

theorem saveCfGo_none {crc : List Nat → Nat} {sizes checksums : List Nat}
    (frs : List CfFileForRecving) (i0 : Nat)
    (h : saveCfGo crc sizes checksums i0 frs = none) :
    ∀ j fr, frs.get? j = some fr →
      sizes.get? (i0 + j) = some fr.writtenSize ∧
      checksums.get? (i0 + j) = some (crc fr.fed) := by
  induction frs generalizing i0 with
  | nil =>
      intro j fr hj
      simp at hj
  | cons fr0 rest ih =>
      intro j fr hj
      rw [saveCfGo] at h
      cases hs : sizes.get? i0 with
      | none =>
          rw [hs] at h
          cases h
      | some sz =>
          rw [hs] at h
          dsimp only at h
          by_cases hw : fr0.writtenSize ≠ sz
          · rw [if_pos hw] at h
            cases h
          · rw [if_neg hw] at h
            cases hc : checksums.get? i0 with
            | none =>
                rw [hc] at h
                cases h
            | some ck =>
                rw [hc] at h
                dsimp only at h
                by_cases hcrc : crc fr0.fed ≠ ck
                · rw [if_pos hcrc] at h
                  cases h
                · rw [if_neg hcrc] at h
                  push_neg at hw hcrc
                  cases j with
                  | zero =>
                      rw [List.get?_cons_zero] at hj
                      cases Option.some.inj hj
                      rw [Nat.add_zero, hs, hc, hw, hcrc]
                      exact ⟨rfl, rfl⟩
                  | succ j2 =>
                      rw [List.get?_cons_succ] at hj
                      have := ih (i0 + 1) h j2 fr hj
                      rwa [Nat.add_assoc, Nat.add_comm 1 j2] at this

theorem findSaveErr_none {crc : List Nat → Nat} {cfs : List CfFileRecv}
    (h : findSaveErr crc cfs = none) : ∀ cf ∈ cfs, saveCf crc cf = none := by
  induction cfs with
  | nil =>
      intro cf hcf
      simp at hcf
  | cons c rest ih =>
      rw [findSaveErr] at h
      cases hc : saveCf crc c with
      | some e =>
          rw [hc] at h
          cases h
      | none =>
          rw [hc] at h
          dsimp only at h
          intro cf hcf
          rcases List.mem_cons.mp hcf with h1 | h1
          · rw [h1]
            exact hc
          · exact ih h cf h1

/-- C1: when `save` succeeds, every receiving state of a chunk of a
non-empty CF file matches its recorded size and checksum exactly; when
any chunk mismatches, `save` returns an error and neither writes the
meta file nor clears `hold_tmp_files` (the snapshot stays uncommitted);
and `Snapshot::validate` — the check run by `apply` — reports success
only if every non-empty recorded chunk is on disk with exactly the
recorded size and checksum. -/
theorem save_spec (crc : List Nat → Nat) (s : RecvSnapshot) (d : SnapDisk) :
    ((save crc s).2 = none →
        ∀ cf ∈ s.cfFiles, ¬cf.sizes.isEmpty →
          ∀ i fr, cf.recv.get? i = some fr →
            cf.sizes.get? i = some fr.writtenSize ∧
            cf.checksums.get? i = some (crc fr.fed)) ∧
    ((∃ cf ∈ s.cfFiles, ¬cf.sizes.isEmpty ∧ ∃ i fr,
        cf.recv.get? i = some fr ∧
          (cf.sizes.get? i ≠ some fr.writtenSize ∨
            cf.checksums.get? i ≠ some (crc fr.fed))) →
        (save crc s).2 ≠ none ∧
        (save crc s).1.metaOnDisk = s.metaOnDisk ∧
        (save crc s).1.holdTmpFiles = s.holdTmpFiles) ∧
    (validateOk d = true →
        ∀ cf ∈ d.cfs, ∀ i, i < cf.files.length →
          cf.sizes.getD i 0 ≠ 0 →
            (cf.files.getD i default).present = true ∧
            (cf.files.getD i default).actualSize = cf.sizes.getD i 0 ∧
            (cf.files.getD i default).actualCrc = cf.checksums.getD i 0) := by
  refine ⟨?_, ?_, ?_⟩
  · intro hok cf hcf hne i fr hi
    have hfind : findSaveErr crc s.cfFiles = none := by
      rw [save] at hok
      cases hf : findSaveErr crc s.cfFiles with
      | some e =>
          rw [hf] at hok
          cases hok
      | none => rfl
    have hcfnone := findSaveErr_none hfind cf hcf
    rw [saveCf, if_neg hne] at hcfnone
    have := saveCfGo_none cf.recv 0 hcfnone i fr hi
    simpa using this
  · rintro ⟨cf, hcf, hne, i, fr, hi, hbad⟩
    have hcfbad : saveCf crc cf ≠ none := by
      intro hnone
      rw [saveCf, if_neg hne] at hnone
      have := saveCfGo_none cf.recv 0 hnone i fr hi
      simp only [Nat.zero_add] at this
      rcases hbad with hb | hb
      · exact hb this.1
      · exact hb this.2
    have hfind : findSaveErr crc s.cfFiles ≠ none := by
      intro h
      exact hcfbad (findSaveErr_none h cf hcf)
    cases hf : findSaveErr crc s.cfFiles with
    | none => exact absurd hf hfind
    | some e =>
        rw [save, hf]
        exact ⟨by simp, rfl, rfl⟩
  · intro hval cf hcf i hi hnz
    rw [validateOk, List.all_eq_true] at hval
    have hc := hval cf hcf
    rw [validateCf, List.all_eq_true] at hc
    have hcond := hc i (List.mem_range.mpr hi)
    rw [Bool.or_eq_true] at hcond
    rcases hcond with hz | hchk
    · rw [beq_iff_eq] at hz
      exact absurd hz hnz
    · rw [checkFileSizeAndChecksum, Bool.and_eq_true, Bool.and_eq_true] at hchk
      rcases hchk with ⟨⟨hp, hsz⟩, hck⟩
      rw [beq_iff_eq] at hsz hck
      exact ⟨hp, hsz, hck⟩

/-- Witness for C1: a clean `save` and a valid on-disk snapshot. -/
theorem save_spec_witness :
    (save List.sum ⟨[⟨.cfDefault, [2], [7], [⟨2, [3, 4]⟩]⟩], 0, 0, false,
        true, true⟩).2 = none ∧
    (⟨.cfDefault, [2], [7], [⟨2, [3, 4]⟩]⟩ : CfFileRecv).sizes.get? 0 =
      some 2 ∧
    validateOk ⟨[⟨[5], [9], [⟨true, 5, 9⟩]⟩], true⟩ = true ∧
    (⟨true, 5, 9⟩ : DiskFile).present = true := by
  have hok : (save List.sum ⟨[⟨.cfDefault, [2], [7], [⟨2, [3, 4]⟩]⟩], 0, 0,
      false, true, true⟩).2 = none := by decide
  have hval : validateOk ⟨[⟨[5], [9], [⟨true, 5, 9⟩]⟩], true⟩ = true := by
    decide
  refine ⟨hok, ?_, hval, ?_⟩
  · have h := (save_spec List.sum ⟨[⟨.cfDefault, [2], [7], [⟨2, [3, 4]⟩]⟩],
        0, 0, false, true, true⟩ ⟨[⟨[5], [9], [⟨true, 5, 9⟩]⟩], true⟩).1 hok
      ⟨.cfDefault, [2], [7], [⟨2, [3, 4]⟩]⟩ (by simp) (by decide) 0
      ⟨2, [3, 4]⟩ (by decide)
    exact h.1
  · have h := (save_spec List.sum ⟨[⟨.cfDefault, [2], [7], [⟨2, [3, 4]⟩]⟩],
        0, 0, false, true, true⟩ ⟨[⟨[5], [9], [⟨true, 5, 9⟩]⟩], true⟩).2.2
      hval ⟨[5], [9], [⟨true, 5, 9⟩]⟩ (by simp) 0 (by decide) (by decide)
    exact h.1
